import Mathlib

/-!
Shallow embedding of the Klax 3D match-simulation engine
(src/games/klax-3d/js/game.js) and verification of the frozen claims.

Conventions of the embedding:
* JS numbers that only ever hold non-negative integers become `Nat`
  (score, level, ids, timers, columns, rows, color indices).
* `lives` becomes `Int` (the code can drive it below zero when several
  overflows happen in one tick).
* Conveyor positions are JS doubles holding small decimal fractions
  (multiples of 0.01: speeds are 0.15 + 0.02k capped at 0.4).  They are
  embedded exactly, scaled by 100: a position is an `Int` counting
  hundredths of a conveyor unit, the speeds 0.15/0.02/0.4 become 15/2/40,
  and the conveyor length 10 becomes 1000 hundredths.  The seeded RNG's
  `next()` divides by 233280; `nextInt` is embedded with the exact rational
  floor `min + (seed * (max - min + 1)) / 233280`.  No claim in this
  development depends on double rounding.
* The 5x5 well `well[col][row]` becomes `List (List (Option Nat))`; `null`
  becomes `none`.  Cell access `well[col][row]` is `wget`.
* The mutable event queue becomes a `List Event` field rebuilt functionally;
  `events.push x` is `events ++ [x]`.
-/

namespace Klax

/-- Game constants from game.js. -/
def WELL_COLS : Nat := 5

def WELL_ROWS : Nat := 5

def RACK_CAPACITY : Nat := 5

def CONVEYOR_LENGTH : Nat := 10

def INITIAL_LIVES : Int := 3

def LEVEL_UP_THRESHOLD : Nat := 1000

/-- A tile in transit on the conveyor: `{ id, position, colorIndex, column }`.
The position is in hundredths of a conveyor unit (0 = far end, 1000 = catch
line). -/
structure Tile where
  id : Nat
  position : Int
  colorIndex : Nat
  column : Nat
deriving DecidableEq, Repr

/-- A reported match.  Well matches carry a type string and a list of
`[col, row]` cell pairs; rack matches (`type: 'rack'`) carry the list of
removed colors in their `tiles` field, embedded as a separate constructor. -/
inductive MatchRec where
  | cells (mtype : String) (tiles : List (Nat × Nat)) (colorIndex : Nat)
  | rackRun (tiles : List Nat) (colorIndex : Nat)
deriving DecidableEq, Repr

/-- Events pushed to the queue during a tick (the `EVENTS` table).  The JS
`tileSpawn` event stores a live reference to the tile object (whose position
is advanced later in the same tick); here it stores the tile record as
pushed. -/
inductive Event where
  | tileSpawn (tile : Tile)
  | catchTile (colorIndex : Nat)
  | dropTile (column : Nat) (colorIndex : Nat)
  | matchFound (ms : List MatchRec) (points : Nat)
  | lifeLost (lives : Int) (reason : String)
  | levelUp (level : Nat)
  | gameOver (score : Nat) (level : Nat)
  | tileFall (column : Nat) (colorIndex : Nat)
deriving DecidableEq, Repr

/-- The well grid: `well[col][row]`, 5 columns of 5 rows. -/
abbrev Well := List (List (Option Nat))

/-- Cell read `well[col][row]` (out-of-range reads never occur in the game;
they default like an empty cell). -/
def wget (w : Well) (col row : Nat) : Option Nat :=
  (w.getD col []).getD row none

/-- Cell write `well[col][row] = v`. -/
def setCell (w : Well) (col row : Nat) (v : Option Nat) : Well :=
  w.set col ((w.getD col []).set row v)

/-- SeededRNG.next: `seed = (seed * 9301 + 49297) % 233280`. -/
def rngNext (seed : Nat) : Nat := (seed * 9301 + 49297) % 233280

/-- SeededRNG.nextInt(min, max): advances the seed and returns
`floor(next() * (max - min + 1)) + min`, embedded with the exact
rational floor.  Returns (value, new seed). -/
def rngNextInt (seed lo hi : Nat) : Nat × Nat :=
  let s := rngNext seed
  (s * (hi - lo + 1) / 233280 + lo, s)

/-- The `while (pos < n && f pos = some color) length++` extension loop shared
by every run scan; `fuel` bounds the recursion (fuel `n` always suffices). -/
def runExt (f : Nat → Option Nat) (n color : Nat) : Nat → Nat → Nat
  | _, 0 => 0
  | pos, fuel + 1 =>
    if pos < n ∧ f pos = some color then runExt f n color (pos + 1) fuel + 1 else 0

/-- Length of the run of `color` starting at `start` on the line `f` of
length `n`: `length = 1` then extend while the next cell matches. -/
def runLen (f : Nat → Option Nat) (n start color : Nat) : Nat :=
  runExt f n color (start + 1) n + 1

/-- The horizontal/vertical scan of one line with the skip
(`col += length - 1` after a reported run): starts at `col`, stops once
`col > n - 3`. -/
def scanLineGo (f : Nat → Option Nat) (n : Nat) : Nat → Nat → List (Nat × Nat × Nat)
  | _, 0 => []
  | col, fuel + 1 =>
    if col + 3 ≤ n then
      match f col with
      | none => scanLineGo f n (col + 1) fuel
      | some c =>
        let len := runLen f n col c
        if 3 ≤ len then (col, len, c) :: scanLineGo f n (col + len) fuel
        else scanLineGo f n (col + 1) fuel
    else []

/-- Scan a full line of length `n` (reports `(start, length, color)` runs). -/
def scanLine (f : Nat → Option Nat) (n : Nat) : List (Nat × Nat × Nat) :=
  scanLineGo f n 0 n

/-- Horizontal pass of findMatches: rows 0..4, each scanned left to right. -/
def hMatches (w : Well) : List MatchRec :=
  (List.range 5).flatMap fun row =>
    (scanLine (fun col => wget w col row) 5).map fun slc =>
      .cells "horizontal" ((List.range slc.2.1).map fun i => (slc.1 + i, row)) slc.2.2

/-- Vertical pass of findMatches: columns 0..4, each scanned top to bottom. -/
def vMatches (w : Well) : List MatchRec :=
  (List.range 5).flatMap fun col =>
    (scanLine (fun row => wget w col row) 5).map fun slc =>
      .cells "vertical" ((List.range slc.2.1).map fun i => (col, slc.1 + i)) slc.2.2

/-- Down-right diagonal check at one start cell (no skipping in the source). -/
def drAt (w : Well) (col row : Nat) : List MatchRec :=
  match wget w col row with
  | none => []
  | some c =>
    let n := min (5 - col) (5 - row)
    let len := runLen (fun i => wget w (col + i) (row + i)) n 0 c
    if 3 ≤ len then
      [.cells "diagonal-dr" ((List.range len).map fun i => (col + i, row + i)) c]
    else []

/-- Down-left diagonal check at one start cell (no skipping in the source). -/
def dlAt (w : Well) (col row : Nat) : List MatchRec :=
  match wget w col row with
  | none => []
  | some c =>
    let n := min (col + 1) (5 - row)
    let len := runLen (fun i => wget w (col - i) (row + i)) n 0 c
    if 3 ≤ len then
      [.cells "diagonal-dl" ((List.range len).map fun i => (col - i, row + i)) c]
    else []

/-- Down-right diagonal pass: starts with col 0..2 (outer), row 0..2 (inner). -/
def drMatches (w : Well) : List MatchRec :=
  (List.range 3).flatMap fun col => (List.range 3).flatMap fun row => drAt w col row

/-- Down-left diagonal pass: starts with col 2..4 (outer), row 0..2 (inner). -/
def dlMatches (w : Well) : List MatchRec :=
  (List.range 3).flatMap fun k => (List.range 3).flatMap fun row => dlAt w (k + 2) row

/-- Game.findMatches: the four passes in source order. -/
def findMatches (w : Well) : List MatchRec :=
  hMatches w ++ vMatches w ++ drMatches w ++ dlMatches w

/-- The size → points table used for both well and rack matches. -/
def sizePoints (size : Nat) : Nat :=
  if size = 3 then 100 else if size = 4 then 300 else if 5 ≤ size then 600 else 0

/-- The `tiles` cell list of a well match (rack matches never reach the well
removal loop). -/
def matchTiles : MatchRec → List (Nat × Nat)
  | .cells _ tiles _ => tiles
  | .rackRun _ _ => []

/-- The removal loop of checkMatches: set every matched cell to null. -/
def removeMatches (w : Well) (ms : List MatchRec) : Well :=
  ms.foldl (fun w m => (matchTiles m).foldl (fun w t => setCell w t.1 t.2 none) w) w

/-- Game.applyGravity on one column: read non-null cells bottom-up, then
rebuild with `well[col][row] = compacted[4 - row]` (null past the end). -/
def gravityCol (c : List (Option Nat)) : List (Option Nat) :=
  let compacted := c.reverse.filterMap id
  (List.range 5).map fun row => compacted.get? (4 - row)

/-- Game.applyGravity: compact every column toward the bottom. -/
def applyGravityW (w : Well) : Well := w.map gravityCol

/-- The descending `for (row = 4; row >= 0; row--)` search for a null cell of
dropTileIntoWell; `k + 1` examines row `k`.  An out-of-range read is
`undefined !== null` in JS, hence the non-null default. -/
def lerGo (c : List (Option Nat)) : Nat → Option Nat
  | 0 => none
  | k + 1 => if c.getD k (some 0) = none then some k else lerGo c k

/-- Lowest (highest row index) empty row of a column, if any. -/
def lowestEmptyRow (c : List (Option Nat)) : Option Nat := lerGo c 5

/-- The loop of checkRackMatches: find the first `start ≤ rack.length - 3`
whose run (computed exactly like the well runs, over `rack.get?`) has length
at least 3; returns `(start, length, color)`. -/
def findRackRunGo (rack : List Nat) : Nat → Nat → Option (Nat × Nat × Nat)
  | _, 0 => none
  | start, fuel + 1 =>
    if start + 3 ≤ rack.length then
      let color := rack.getD start 0
      let len := runLen (fun i => rack.get? i) rack.length start color
      if 3 ≤ len then some (start, len, color)
      else findRackRunGo rack (start + 1) fuel
    else none

/-- First run of length ≥ 3 in the rack, scanning starts left to right. -/
def findRackRun (rack : List Nat) : Option (Nat × Nat × Nat) :=
  findRackRunGo rack 0 rack.length

/-- The complete engine state (the fields of the Game object, plus the RNG
seed it owns). -/
structure Game where
  seed : Nat
  score : Nat
  level : Nat
  lives : Int
  paused : Bool
  gameOver : Bool
  conveyorTiles : List Tile
  nextTileId : Nat
  spawnTimer : Nat
  catcherColumn : Nat
  rack : List Nat
  well : Well
  events : List Event
  frameCount : Nat
deriving DecidableEq, Repr

/-- Game.checkLevelUp: recompute `floor(score / 1000) + 1` and update (with a
level-up event) only when it exceeds the stored level. -/
def Game.checkLevelUp (g : Game) : Game :=
  let newLevel := g.score / LEVEL_UP_THRESHOLD + 1
  if g.level < newLevel then
    { g with level := newLevel, events := g.events ++ [.levelUp newLevel] }
  else g

/-- Game.loseLife: decrement lives, emit the life-lost event, and flip to
game over (with a game-over event) once lives are ≤ 0. -/
def Game.loseLife (g : Game) (reason : String) : Game :=
  let g1 : Game :=
    { g with lives := g.lives - 1, events := g.events ++ [.lifeLost (g.lives - 1) reason] }
  if g1.lives ≤ 0 then
    { g1 with gameOver := true, events := g1.events ++ [.gameOver g1.score g1.level] }
  else g1

/-- Game.dropTileIntoWell: fill the lowest empty cell of the column, else
lose a life ("Well column full"). -/
def Game.dropTileIntoWell (g : Game) (col colorIndex : Nat) : Game :=
  match lowestEmptyRow (g.well.getD col []) with
  | some row => { g with well := setCell g.well col row (some colorIndex) }
  | none => g.loseLife "Well column full"

/-- Auxiliary bound: the extension loop never runs past the line. -/
theorem runExt_le (f : Nat → Option Nat) (n color : Nat) :
    ∀ fuel pos, runExt f n color pos fuel ≤ n - pos := by
  intro fuel
  induction fuel with
  | zero => intro pos; simp [runExt]
  | succ k ih =>
    intro pos
    by_cases h : pos < n ∧ f pos = some color
    · have h2 := ih (pos + 1)
      simp only [runExt, if_pos h]
      omega
    · simp only [runExt, if_neg h]
      omega

/-- A run found by the rack scan fits inside the rack and has length ≥ 3. -/
theorem findRackRunGo_some (rack : List Nat) :
    ∀ fuel start s l c, findRackRunGo rack start fuel = some (s, l, c) →
      3 ≤ l ∧ s + l ≤ rack.length := by
  intro fuel
  induction fuel with
  | zero => intro start s l c h; simp [findRackRunGo] at h
  | succ k ih =>
    intro start s l c h
    simp only [findRackRunGo] at h
    split at h
    · rename_i hst
      split at h
      · rename_i h3
        have hle := runExt_le (fun i => rack.get? i) rack.length
          (rack.getD start 0) rack.length (start + 1)
        simp only [Option.some.injEq, Prod.mk.injEq] at h
        obtain ⟨hs, hl, hc⟩ := h
        subst hs; subst hl
        constructor
        · exact h3
        · simp only [runLen] at *
          omega
      · exact ih (start + 1) s l c h
    · simp at h

/-- A run found in the rack fits inside the rack and has length ≥ 3. -/
theorem findRackRun_some {rack : List Nat} {s l c : Nat}
    (h : findRackRun rack = some (s, l, c)) : 3 ≤ l ∧ s + l ≤ rack.length :=
  findRackRunGo_some rack rack.length 0 s l c h

/-- Game.checkRackMatches: repeatedly splice out the first run of length ≥ 3,
score it, emit a rack match event, check level-up, and re-scan. -/
def Game.checkRackMatches (g : Game) : Game :=
  if g.rack.length < 3 then g
  else
    match h : findRackRun g.rack with
    | none => g
    | some (start, len, color) =>
      let matched := (g.rack.drop start).take len
      let rack1 := g.rack.take start ++ g.rack.drop (start + len)
      let points := sizePoints len
      Game.checkRackMatches (Game.checkLevelUp
        { g with
          rack := rack1,
          score := g.score + points,
          events := g.events ++ [.matchFound [.rackRun matched color] points] })
  termination_by g.rack.length
  decreasing_by
    have hb := findRackRun_some h
    simp only [Game.checkLevelUp]
    split <;> simp <;> omega

/-- Game.checkMatches: resolve all well matches found this tick (remove the
union of matched cells, add the summed points, emit one match event, apply
gravity, then check level-up). -/
def Game.checkMatches (g : Game) : Game :=
  let ms := findMatches g.well
  if ms.length = 0 then g
  else
    let points := (ms.map fun m => sizePoints (matchTiles m).length).sum
    Game.checkLevelUp
      { g with
        well := applyGravityW (removeMatches g.well ms),
        score := g.score + points,
        events := g.events ++ [.matchFound ms points] }

/-- Game.handleTileReachedEnd: catch into the rack (then check rack matches)
when aligned with the catcher, else drop into the well at the tile's own
column and emit a tile-fall event. -/
def Game.handleTileReachedEnd (g : Game) (tile : Tile) : Game :=
  if tile.column = g.catcherColumn then
    if g.rack.length < RACK_CAPACITY then
      Game.checkRackMatches
        { g with
          rack := g.rack ++ [tile.colorIndex],
          events := g.events ++ [.catchTile tile.colorIndex] }
    else g.loseLife "Rack overflow"
  else
    let g1 := g.dropTileIntoWell tile.column tile.colorIndex
    { g1 with events := g1.events ++ [.tileFall tile.column tile.colorIndex] }

/-- Game.getSpawnInterval: `max(120 - (level - 1) * 8, 30)`. -/
def Game.getSpawnInterval (g : Game) : Int :=
  max (120 - ((g.level : Int) - 1) * 8) 30

/-- Game.getTileSpeed: `min(0.15 + (level - 1) * 0.02, 0.4)`, in hundredths
of a conveyor unit per frame. -/
def Game.getTileSpeed (g : Game) : Int :=
  min (15 + ((g.level : Int) - 1) * 2) 40

/-- Game.getNumColors: `min(3 + floor(level / 3), 6)`. -/
def Game.getNumColors (g : Game) : Nat := min (3 + g.level / 3) 6

/-- Game.spawnTile: draw a color then a column from the RNG, append the tile
at position 0, emit a spawn event. -/
def Game.spawnTile (g : Game) : Game :=
  let r1 := rngNextInt g.seed 0 (g.getNumColors - 1)
  let r2 := rngNextInt r1.2 0 (WELL_COLS - 1)
  let tile : Tile :=
    { id := g.nextTileId, position := 0, colorIndex := r1.1, column := r2.1 }
  { g with
    seed := r2.2,
    nextTileId := g.nextTileId + 1,
    conveyorTiles := g.conveyorTiles ++ [tile],
    events := g.events ++ [.tileSpawn tile] }

/-- Game.updateSpawning: advance the spawn timer; once it reaches the spawn
interval, reset it and spawn a tile. -/
def Game.updateSpawning (g : Game) : Game :=
  let g1 : Game := { g with spawnTimer := g.spawnTimer + 1 }
  if g1.getSpawnInterval ≤ (g1.spawnTimer : Int) then
    Game.spawnTile { g1 with spawnTimer := 0 }
  else g1

/-- Game.updateConveyor: move every tile by the (single) tick speed; tiles
whose position reaches the conveyor length are removed and handed to
handleTileReachedEnd, in reverse index order (the source iterates backwards
and splices). -/
def Game.updateConveyor (g : Game) : Game :=
  let speed := g.getTileSpeed
  let moved := g.conveyorTiles.map fun t => { t with position := t.position + speed }
  let staying := moved.filter fun t => decide (t.position < 100 * (CONVEYOR_LENGTH : Int))
  let leaving := moved.filter fun t => decide (100 * (CONVEYOR_LENGTH : Int) ≤ t.position)
  (leaving.reverse).foldl Game.handleTileReachedEnd { g with conveyorTiles := staying }

/-- Game.update: a no-op while paused or after game over; otherwise advance
the frame counter, clear the event queue, spawn, move the conveyor, and
resolve well matches. -/
def Game.update (g : Game) : Game :=
  if g.paused || g.gameOver then g
  else
    Game.checkMatches (Game.updateConveyor (Game.updateSpawning
      { g with frameCount := g.frameCount + 1, events := [] }))

/-- Game.moveLeft: shift the catcher left unless paused, over, or at 0. -/
def Game.moveLeft (g : Game) : Bool × Game :=
  if g.paused = false ∧ g.gameOver = false ∧ 0 < g.catcherColumn then
    (true, { g with catcherColumn := g.catcherColumn - 1 })
  else (false, g)

/-- Game.moveRight: shift the catcher right unless paused, over, or at 4. -/
def Game.moveRight (g : Game) : Bool × Game :=
  if g.paused = false ∧ g.gameOver = false ∧ g.catcherColumn < WELL_COLS - 1 then
    (true, { g with catcherColumn := g.catcherColumn + 1 })
  else (false, g)

/-- Game.dropFromRack: shift the front rack entry and drop it into the well
at the catcher's column, then emit a drop event. -/
def Game.dropFromRack (g : Game) : Bool × Game :=
  if g.paused = false ∧ g.gameOver = false ∧ 0 < g.rack.length then
    match g.rack with
    | [] => (false, g)
    | colorIndex :: rest =>
      let g1 := Game.dropTileIntoWell { g with rack := rest } g.catcherColumn colorIndex
      (true, { g1 with events := g1.events ++ [.dropTile g.catcherColumn colorIndex] })
  else (false, g)

/-- Game.togglePause: flip the pause flag unless the game is over. -/
def Game.togglePause (g : Game) : Game :=
  if g.gameOver = false then { g with paused := !g.paused } else g

/-- Game.getEvents: returns a copy of the event queue; the engine state is
untouched by the read (the source returns `[...this.events]`). -/
def Game.getEvents (g : Game) : List Event × Game := (g.events, g)

/-- Game.reset: reinitialize every field except the RNG stream. -/
def Game.reset (g : Game) : Game :=
  { seed := g.seed, score := 0, level := 1, lives := INITIAL_LIVES,
    paused := false, gameOver := false, conveyorTiles := [], nextTileId := 0,
    spawnTimer := 0, catcherColumn := 2, rack := [],
    well := List.replicate 5 (List.replicate 5 none), events := [], frameCount := 0 }

/-- A fresh engine: the constructor seeds the RNG and calls reset. -/
def Game.init (seed : Nat) : Game :=
  { seed := seed, score := 0, level := 1, lives := INITIAL_LIVES,
    paused := false, gameOver := false, conveyorTiles := [], nextTileId := 0,
    spawnTimer := 0, catcherColumn := 2, rack := [],
    well := List.replicate 5 (List.replicate 5 none), events := [], frameCount := 0 }

/-- States reachable from a fresh or reset engine through the public API. -/
inductive Reach : Game → Prop where
  | init (seed : Nat) : Reach (Game.init seed)
  | update {g : Game} : Reach g → Reach g.update
  | moveLeft {g : Game} : Reach g → Reach (g.moveLeft).2
  | moveRight {g : Game} : Reach g → Reach (g.moveRight).2
  | dropFromRack {g : Game} : Reach g → Reach (g.dropFromRack).2
  | togglePause {g : Game} : Reach g → Reach g.togglePause
  | reset {g : Game} : Reach g → Reach g.reset

/-! ### Frame lemmas for the elementary operations -/

@[simp] theorem checkLevelUp_score (g : Game) : (g.checkLevelUp).score = g.score := by
  simp only [Game.checkLevelUp]; split <;> rfl

@[simp] theorem checkLevelUp_rack (g : Game) : (g.checkLevelUp).rack = g.rack := by
  simp only [Game.checkLevelUp]; split <;> rfl

@[simp] theorem checkLevelUp_well (g : Game) : (g.checkLevelUp).well = g.well := by
  simp only [Game.checkLevelUp]; split <;> rfl

@[simp] theorem checkLevelUp_lives (g : Game) : (g.checkLevelUp).lives = g.lives := by
  simp only [Game.checkLevelUp]; split <;> rfl

@[simp] theorem checkLevelUp_paused (g : Game) : (g.checkLevelUp).paused = g.paused := by
  simp only [Game.checkLevelUp]; split <;> rfl

@[simp] theorem checkLevelUp_gameOver (g : Game) : (g.checkLevelUp).gameOver = g.gameOver := by
  simp only [Game.checkLevelUp]; split <;> rfl

@[simp] theorem checkLevelUp_catcher (g : Game) :
    (g.checkLevelUp).catcherColumn = g.catcherColumn := by
  simp only [Game.checkLevelUp]; split <;> rfl

@[simp] theorem checkLevelUp_conveyor (g : Game) :
    (g.checkLevelUp).conveyorTiles = g.conveyorTiles := by
  simp only [Game.checkLevelUp]; split <;> rfl

/-- checkLevelUp restores the level invariant after the score grew. -/
theorem checkLevelUp_level {g : Game} {s : Nat} (hs : s ≤ g.score)
    (hl : g.level = s / LEVEL_UP_THRESHOLD + 1) :
    (g.checkLevelUp).level = g.score / LEVEL_UP_THRESHOLD + 1 := by
  simp only [Game.checkLevelUp]
  split
  · rfl
  · rename_i hlt
    have hdiv : s / LEVEL_UP_THRESHOLD ≤ g.score / LEVEL_UP_THRESHOLD :=
      Nat.div_le_div_right hs
    omega

@[simp] theorem loseLife_lives (g : Game) (r : String) :
    (g.loseLife r).lives = g.lives - 1 := by
  simp only [Game.loseLife]; split <;> rfl

@[simp] theorem loseLife_well (g : Game) (r : String) : (g.loseLife r).well = g.well := by
  simp only [Game.loseLife]; split <;> rfl

@[simp] theorem loseLife_rack (g : Game) (r : String) : (g.loseLife r).rack = g.rack := by
  simp only [Game.loseLife]; split <;> rfl

@[simp] theorem loseLife_score (g : Game) (r : String) : (g.loseLife r).score = g.score := by
  simp only [Game.loseLife]; split <;> rfl

@[simp] theorem loseLife_level (g : Game) (r : String) : (g.loseLife r).level = g.level := by
  simp only [Game.loseLife]; split <;> rfl

@[simp] theorem loseLife_catcher (g : Game) (r : String) :
    (g.loseLife r).catcherColumn = g.catcherColumn := by
  simp only [Game.loseLife]; split <;> rfl

@[simp] theorem loseLife_conveyor (g : Game) (r : String) :
    (g.loseLife r).conveyorTiles = g.conveyorTiles := by
  simp only [Game.loseLife]; split <;> rfl

@[simp] theorem loseLife_paused (g : Game) (r : String) :
    (g.loseLife r).paused = g.paused := by
  simp only [Game.loseLife]; split <;> rfl

/-- The full event trace of loseLife. -/
theorem loseLife_events (g : Game) (r : String) :
    (g.loseLife r).events =
      g.events ++ [.lifeLost (g.lives - 1) r] ++
        (if g.lives - 1 ≤ 0 then [.gameOver g.score g.level] else []) := by
  simp only [Game.loseLife]; split <;> simp_all

theorem lifeLost_mem_loseLife (g : Game) (r : String) :
    Event.lifeLost (g.lives - 1) r ∈ (g.loseLife r).events := by
  rw [loseLife_events]; simp

/-! ### The lowest-empty-row search -/

/-- Where the descending search succeeds: the found row is empty and every
row strictly below it is filled. -/
theorem lerGo_some (c : List (Option Nat)) :
    ∀ n r, lerGo c n = some r →
      r < n ∧ c.getD r (some 0) = none ∧ ∀ j, r < j → j < n → c.getD j (some 0) ≠ none := by
  intro n
  induction n with
  | zero => intro r h; simp [lerGo] at h
  | succ k ih =>
    intro r h
    simp only [lerGo] at h
    split at h
    · rename_i hk
      have hkr : k = r := by simpa using h
      subst hkr
      exact ⟨Nat.lt_succ_self k, hk, fun j hj hj2 => by omega⟩
    · rename_i hk
      obtain ⟨h1, h2, h3⟩ := ih r h
      refine ⟨by omega, h2, fun j hj hj2 => ?_⟩
      rcases Nat.lt_or_ge j k with hlt | hge
      · exact h3 j hj hlt
      · have : j = k := by omega
        subst this; exact hk

/-- If the search finds no empty row, every row below `n` is filled. -/
theorem lerGo_none (c : List (Option Nat)) :
    ∀ n, lerGo c n = none → ∀ j, j < n → c.getD j (some 0) ≠ none := by
  intro n
  induction n with
  | zero => intro _ j hj; omega
  | succ k ih =>
    intro h j hj
    simp only [lerGo] at h
    split at h
    · exact absurd h (by simp)
    · rename_i hk
      rcases Nat.lt_or_ge j k with hlt | hge
      · exact ih h j hlt
      · have : j = k := by omega
        subst this; exact hk

/-- Rephrase a filled cell from the `none`-default read to the `some`-default
read used by the row search. -/
theorem getD_ne_none_defaults {c : List (Option Nat)} {j : Nat}
    (h : c.getD j none ≠ none) : c.getD j (some 0) = c.getD j none := by
  induction c generalizing j with
  | nil => simp [List.getD_nil] at h
  | cons x xs ih =>
    cases j with
    | zero => simp [List.getD_cons_zero]
    | succ k =>
      simp only [List.getD_cons_succ] at *
      exact ih h

/-- A column whose five cells are all filled has no empty row. -/
theorem lowestEmptyRow_none_of_full {c : List (Option Nat)}
    (h : ∀ r, r < WELL_ROWS → c.getD r none ≠ none) : lowestEmptyRow c = none := by
  rcases hx : lowestEmptyRow c with _ | r
  · rfl
  · obtain ⟨h1, h2, _⟩ := lerGo_some c 5 r hx
    have hr := h r h1
    rw [getD_ne_none_defaults hr] at h2
    exact absurd h2 hr

/-- Conversely, with no empty row every cell of the column is filled. -/
theorem full_of_lowestEmptyRow_none {c : List (Option Nat)}
    (h : lowestEmptyRow c = none) : ∀ r, r < WELL_ROWS → c.getD r (some 0) ≠ none :=
  fun r hr => lerGo_none c 5 h r hr

/-- dropTileIntoWell on a full column only loses a life. -/
theorem dropTileIntoWell_full {g : Game} {col : Nat}
    (h : ∀ r, r < WELL_ROWS → wget g.well col r ≠ none) (colorIndex : Nat) :
    g.dropTileIntoWell col colorIndex = g.loseLife "Well column full" := by
  simp only [Game.dropTileIntoWell, wget] at *
  rw [lowestEmptyRow_none_of_full h]

/-- dropTileIntoWell on a column with an empty cell fills its lowest one. -/
theorem dropTileIntoWell_notFull {g : Game} {col row : Nat}
    (h : lowestEmptyRow (g.well.getD col []) = some row) (colorIndex : Nat) :
    g.dropTileIntoWell col colorIndex =
      { g with well := setCell g.well col row (some colorIndex) } := by
  simp only [Game.dropTileIntoWell]
  rw [h]

/-! ### The rack cascade -/

/-- Spec-side notion for claim C10: the rack holds three consecutive equal
color indices somewhere. -/
def hasRun3 : List Nat → Bool
  | a :: b :: c :: rest => (decide (a = b) && decide (b = c)) || hasRun3 (b :: c :: rest)
  | _ => false

theorem hasRun3_of_short {l : List Nat} (h : l.length < 3) : hasRun3 l = false := by
  match l with
  | [] => rfl
  | [_] => rfl
  | [_, _] => rfl
  | _ :: _ :: _ :: _ => simp only [List.length_cons] at h; omega

/-- A three-long run yields three equal consecutive reads. -/
theorem hasRun3_exists :
    ∀ l : List Nat, hasRun3 l = true →
      ∃ i v, l.get? i = some v ∧ l.get? (i + 1) = some v ∧ l.get? (i + 2) = some v := by
  intro l
  match l with
  | [] => intro h; simp [hasRun3] at h
  | [_] => intro h; simp [hasRun3] at h
  | [_, _] => intro h; simp [hasRun3] at h
  | a :: b :: c :: rest =>
    intro h
    simp only [hasRun3, Bool.or_eq_true, Bool.and_eq_true, decide_eq_true_eq] at h
    rcases h with ⟨hab, hbc⟩ | h2
    · subst hab; subst hbc
      exact ⟨0, a, rfl, rfl, rfl⟩
    · obtain ⟨i, v, h1, h2, h3⟩ := hasRun3_exists (b :: c :: rest) h2
      exact ⟨i + 1, v, h1, h2, h3⟩

/-- The extension loop reaches at least `k` when the next `k` cells match. -/
theorem runExt_ge (f : Nat → Option Nat) (n color : Nat) :
    ∀ fuel p k, k ≤ fuel →
      (∀ j, j < k → p + j < n ∧ f (p + j) = some color) →
      k ≤ runExt f n color p fuel := by
  intro fuel
  induction fuel with
  | zero => intro p k hk _; omega
  | succ m ih =>
    intro p k hk hcells
    cases k with
    | zero => exact Nat.zero_le _
    | succ k0 =>
      have h0 : p < n ∧ f p = some color := hcells 0 (by omega)
      rw [runExt, if_pos h0]
      have hrec := ih (p + 1) k0 (by omega) (fun j hj => by
        have := hcells (j + 1) (by omega)
        have harith : p + (j + 1) = p + 1 + j := by omega
        rwa [harith] at this)
      omega

/-- When the descending scan reports no run, every examined start has a run
shorter than 3. -/
theorem findRackRunGo_none (rack : List Nat) :
    ∀ fuel start, findRackRunGo rack start fuel = none →
      ∀ s, start ≤ s → s < start + fuel → s + 3 ≤ rack.length →
        runLen (fun i => rack.get? i) rack.length s (rack.getD s 0) < 3 := by
  intro fuel
  induction fuel with
  | zero => intro start h s h1 h2 h3; omega
  | succ m ih =>
    intro start h s h1 h2 h3
    simp only [findRackRunGo] at h
    split at h
    · rename_i hguard
      split at h
      · simp at h
      · rename_i hlen
        rcases Nat.eq_or_lt_of_le h1 with heq | hlt
        · subst heq; omega
        · exact ih (start + 1) h s hlt (by omega) h3
    · rename_i hguard
      omega

/-- If the rack scan finds nothing, the rack has no run of three. -/
theorem hasRun3_false_of_findRackRun_none {rack : List Nat}
    (h : findRackRun rack = none) : hasRun3 rack = false := by
  cases hr : hasRun3 rack with
  | false => rfl
  | true =>
    obtain ⟨i, v, h1, h2, h3⟩ := hasRun3_exists rack hr
    have hlen : i + 2 < rack.length := by
      by_contra hc
      rw [List.get?_eq_none.mpr (by omega)] at h3
      exact absurd h3 (by simp)
    have hcol : rack.getD i 0 = v := by
      rw [List.getD_eq_getElem?_getD, ← List.get?_eq_getElem?, h1]
      rfl
    have hge : 2 ≤ runExt (fun j => rack.get? j) rack.length v (i + 1) rack.length := by
      apply runExt_ge
      · omega
      · intro j hj
        interval_cases j
        · exact ⟨by omega, h2⟩
        · exact ⟨by omega, h3⟩
    have hlt := findRackRunGo_none rack rack.length 0 h i (by omega) (by omega) (by omega)
    rw [hcol] at hlt
    simp only [runLen] at hlt
    omega

/-- The main bundle for checkRackMatches: it only touches rack, score, level
and events; the rack can only shrink; the score can only grow; the resulting
rack has no run of three; and the level invariant is preserved. -/
theorem crm_main (g : Game) :
    (g.checkRackMatches).well = g.well ∧
    (g.checkRackMatches).catcherColumn = g.catcherColumn ∧
    (g.checkRackMatches).lives = g.lives ∧
    (g.checkRackMatches).paused = g.paused ∧
    (g.checkRackMatches).gameOver = g.gameOver ∧
    (g.checkRackMatches).conveyorTiles = g.conveyorTiles ∧
    (g.checkRackMatches).rack.length ≤ g.rack.length ∧
    g.score ≤ (g.checkRackMatches).score ∧
    hasRun3 (g.checkRackMatches).rack = false ∧
    (g.level = g.score / LEVEL_UP_THRESHOLD + 1 →
      (g.checkRackMatches).level = (g.checkRackMatches).score / LEVEL_UP_THRESHOLD + 1) := by
  induction g using Game.checkRackMatches.induct with
  | case1 g hshort =>
    rw [Game.checkRackMatches.eq_def, if_pos hshort]
    refine ⟨rfl, rfl, rfl, rfl, rfl, rfl, le_refl _, le_refl _, hasRun3_of_short hshort, ?_⟩
    exact fun h => h
  | case2 g hlong hnone =>
    rw [Game.checkRackMatches.eq_def, if_neg hlong]
    split
    · refine ⟨rfl, rfl, rfl, rfl, rfl, rfl, le_refl _, le_refl _,
        hasRun3_false_of_findRackRun_none hnone, fun h => h⟩
    · rename_i s l c heq
      rw [hnone] at heq
      exact absurd heq (by simp)
  | case3 g hlong start len color hfound m1 r1 p1 ih =>
    rw [Game.checkRackMatches.eq_def, if_neg hlong]
    split
    · rename_i heq
      rw [hfound] at heq
      exact absurd heq (by simp)
    · rename_i s l c heq
      rw [hfound] at heq
      simp only [Option.some.injEq, Prod.mk.injEq] at heq
      obtain ⟨hs, hl, hc⟩ := heq
      subst hs; subst hl; subst hc
      obtain ⟨hwell, hcatch, hlives, hpaused, hgo, hconv, hlen, hscore, hrun, hlevel⟩ := ih
      have hb := findRackRun_some hfound
      have hrack1 : (List.take start g.rack ++ List.drop (start + len) g.rack).length
          < g.rack.length := by
        rw [List.length_append, List.length_take, List.length_drop]
        omega
      refine ⟨?_, ?_, ?_, ?_, ?_, ?_, ?_, ?_, hrun, ?_⟩
      · rw [hwell]; simp
      · rw [hcatch]; simp
      · rw [hlives]; simp
      · rw [hpaused]; simp
      · rw [hgo]; simp
      · rw [hconv]; simp
      · refine le_trans hlen ?_
        simp only [checkLevelUp_rack]
        exact Nat.le_of_lt hrack1
      · refine le_trans ?_ hscore
        simp only [checkLevelUp_score]
        exact Nat.le_add_right _ _
      · intro hpre
        apply hlevel
        rw [checkLevelUp_score]
        exact checkLevelUp_level (Nat.le_add_right _ _) hpre

/-! ### Well shape: dimensions and bottom-up compactness -/

/-- Every cell of a column is filled. -/
def allSome : List (Option Nat) → Bool
  | [] => true
  | none :: _ => false
  | some _ :: rest => allSome rest

/-- A column, read top (row 0) to bottom (row 4), is empty cells followed by
filled cells: no empty cell lies below a filled one. -/
def colCompact : List (Option Nat) → Bool
  | [] => true
  | none :: rest => colCompact rest
  | some _ :: rest => allSome rest

/-- The columns are always 5 lists of 5 cells. -/
def wellDims (w : Well) : Prop := w.length = 5 ∧ ∀ c ∈ w, c.length = 5

theorem allSome_iff (c : List (Option Nat)) :
    allSome c = true ↔ ∀ j, j < c.length → c.getD j none ≠ none := by
  induction c with
  | nil => simp [allSome]
  | cons x rest ih =>
    cases x with
    | none =>
      simp only [allSome, List.length_cons]
      constructor
      · intro h; exact absurd h (by simp)
      · intro h
        have := h 0 (by omega)
        simp [List.getD_cons_zero] at this
    | some v =>
      simp only [allSome, List.length_cons, ih]
      constructor
      · intro h j hj
        cases j with
        | zero => simp [List.getD_cons_zero]
        | succ k => rw [List.getD_cons_succ]; exact h k (by omega)
      · intro h j hj
        have := h (j + 1) (by omega)
        rwa [List.getD_cons_succ] at this

theorem colCompact_iff (c : List (Option Nat)) :
    colCompact c = true ↔
      ∀ i j, i ≤ j → j < c.length → c.getD i none ≠ none → c.getD j none ≠ none := by
  induction c with
  | nil => simp [colCompact]
  | cons x rest ih =>
    cases x with
    | none =>
      simp only [colCompact, List.length_cons, ih]
      constructor
      · intro h i j hij hj hi
        cases i with
        | zero => simp [List.getD_cons_zero] at hi
        | succ i0 =>
          cases j with
          | zero => omega
          | succ j0 =>
            rw [List.getD_cons_succ] at hi ⊢
            exact h i0 j0 (by omega) (by omega) hi
      · intro h i j hij hj hi
        have := h (i + 1) (j + 1) (by omega) (by omega)
        rw [List.getD_cons_succ, List.getD_cons_succ] at this
        exact this hi
    | some v =>
      simp only [colCompact, allSome_iff]
      constructor
      · intro h i j hij hj hi
        cases j with
        | zero => simp [List.getD_cons_zero]
        | succ j0 =>
          rw [List.getD_cons_succ]
          rw [List.length_cons] at hj
          exact h j0 (by omega)
      · intro h j hj
        have := h 0 (j + 1) (by omega) (by simp; omega) (by simp [List.getD_cons_zero])
        rwa [List.getD_cons_succ] at this

/-- getD with an in-range index ignores the default. -/
theorem getD_default_eq {α} {c : List α} {j : Nat} (h : j < c.length) (d d' : α) :
    c.getD j d = c.getD j d' := by
  rw [List.getD_eq_getElem?_getD, List.getD_eq_getElem?_getD, List.getElem?_eq_getElem h]
  rfl

theorem getD_set_self {α} {l : List α} {n : Nat} (h : n < l.length) (a : α) (d : α) :
    (l.set n a).getD n d = a := by
  rw [List.getD_eq_getElem?_getD, List.getElem?_set]
  simp [h]

theorem getD_set_ne {α} {l : List α} {n m : Nat} (h : n ≠ m) (a : α) (d : α) :
    (l.set n a).getD m d = l.getD m d := by
  rw [List.getD_eq_getElem?_getD, List.getElem?_set, List.getD_eq_getElem?_getD]
  simp [h]

/-- Filling the lowest empty row of a compact 5-cell column keeps it compact. -/
theorem colCompact_set_lowest {c : List (Option Nat)} {r : Nat} {x : Nat}
    (hlen : c.length = 5) (hcomp : colCompact c = true)
    (hler : lowestEmptyRow c = some r) :
    colCompact (c.set r (some x)) = true := by
  obtain ⟨hr5, hrEmpty, hbelow⟩ := lerGo_some c 5 r hler
  rw [colCompact_iff]
  intro i j hij hj hi
  rw [List.length_set, hlen] at hj
  by_cases hjr : j = r
  · subst hjr
    rw [getD_set_self (by omega) (some x) none]
    simp
  · rw [getD_set_ne (fun hh => hjr hh.symm) (some x) none]
    by_cases hir : i = r
    · subst hir
      have hjgt : i < j := by omega
      have := hbelow j (by omega) (by omega)
      rw [getD_default_eq (by omega) (some 0) none] at this
      exact this
    · rw [getD_set_ne (fun hh => hir hh.symm) (some x) none] at hi
      by_cases hilt : i < r
      · exfalso
        have := (colCompact_iff c).mp hcomp i r (by omega) (by omega) hi
        have hre : c.getD r (some 0) = c.getD r none := getD_default_eq (by omega) _ _
        rw [hre] at hrEmpty
        exact this hrEmpty
      · have hgt : r < i := by omega
        rcases Nat.eq_or_lt_of_le hij with heq | hlt
        · subst heq; exact hi
        · have := hbelow j (by omega) (by omega)
          rw [getD_default_eq (by omega) (some 0) none] at this
          exact this

/-- Gravity produces a column of length 5. -/
theorem gravityCol_length (c : List (Option Nat)) : (gravityCol c).length = 5 := by
  simp [gravityCol]

/-- Columns produced by gravity are compact. -/
theorem gravityCol_compact (c : List (Option Nat)) : colCompact (gravityCol c) = true := by
  rw [colCompact_iff]
  intro i j hij hj hi
  rw [gravityCol_length] at hj
  have hread : ∀ k, k < 5 →
      (gravityCol c).getD k none = (c.reverse.filterMap id).get? (4 - k) := by
    intro k hk
    simp only [gravityCol]
    rw [List.getD_eq_getElem?_getD,
      List.getElem?_eq_getElem (by simpa using hk)]
    simp
  rw [hread i (by omega)] at hi
  rw [hread j hj]
  rcases hx : (c.reverse.filterMap id).get? (4 - i) with _ | v
  · rw [hx] at hi; simp at hi
  · have hlt : 4 - i < (c.reverse.filterMap id).length := by
      by_contra hc
      rw [List.get?_eq_none.mpr (by omega)] at hx
      exact absurd hx (by simp)
    intro hcontra
    rw [List.get?_eq_none] at hcontra
    omega

theorem getD_mem {w : Well} {col : Nat} (h : col < w.length) : w.getD col [] ∈ w := by
  rw [List.getD_eq_getElem?_getD, List.getElem?_eq_getElem h]
  exact List.getElem_mem h

theorem setCell_dims {w : Well} (hd : wellDims w) (col row : Nat) (v : Option Nat) :
    wellDims (setCell w col row v) := by
  obtain ⟨h5, hcols⟩ := hd
  by_cases hcol : col < w.length
  · refine ⟨by simp [setCell, h5], ?_⟩
    intro c hc
    rcases List.mem_or_eq_of_mem_set hc with hmem | heq
    · exact hcols c hmem
    · subst heq
      rw [List.length_set]
      exact hcols _ (getD_mem hcol)
  · unfold setCell
    rw [List.set_eq_of_length_le (by omega)]
    exact ⟨h5, hcols⟩

/-- The empty column search fails on an out-of-range (empty) column. -/
theorem lowestEmptyRow_nil : lowestEmptyRow [] = none := rfl

/-- dropTileIntoWell keeps the well well-formed and compact. -/
theorem dropTile_shape {g : Game} (hd : wellDims g.well)
    (hc : ∀ c ∈ g.well, colCompact c = true) (col ci : Nat) :
    wellDims (g.dropTileIntoWell col ci).well ∧
      ∀ c ∈ (g.dropTileIntoWell col ci).well, colCompact c = true := by
  unfold Game.dropTileIntoWell
  rcases hler : lowestEmptyRow (g.well.getD col []) with _ | r
  · simpa using ⟨hd, hc⟩
  · have hcol : col < g.well.length := by
      by_contra hcc
      rw [List.getD_eq_getElem?_getD, List.getElem?_eq_none (by omega)] at hler
      simp only [Option.getD_none, lowestEmptyRow_nil] at hler
      exact absurd hler (by simp)
    refine ⟨setCell_dims hd col r (some ci), ?_⟩
    intro c hcmem
    rcases List.mem_or_eq_of_mem_set hcmem with hmem | heq
    · exact hc c hmem
    · subst heq
      exact colCompact_set_lowest (hd.2 _ (getD_mem hcol)) (hc _ (getD_mem hcol)) hler

/-- dropTileIntoWell touches only the well, the lives and the events. -/
theorem dropTile_frame (g : Game) (col ci : Nat) :
    (g.dropTileIntoWell col ci).score = g.score ∧
    (g.dropTileIntoWell col ci).level = g.level ∧
    (g.dropTileIntoWell col ci).rack = g.rack ∧
    (g.dropTileIntoWell col ci).catcherColumn = g.catcherColumn ∧
    (g.dropTileIntoWell col ci).paused = g.paused ∧
    (g.dropTileIntoWell col ci).conveyorTiles = g.conveyorTiles := by
  unfold Game.dropTileIntoWell
  rcases lowestEmptyRow (g.well.getD col []) with _ | r <;> simp

/-- Invariant preservation helper for folds. -/
theorem foldl_preserve {α β : Type} {P : β → Prop} {f : β → α → β}
    (hf : ∀ b a, P b → P (f b a)) :
    ∀ (l : List α) (b : β), P b → P (l.foldl f b) := by
  intro l
  induction l with
  | nil => intro b hb; exact hb
  | cons a t ih => intro b hb; exact ih (f b a) (hf b a hb)

/-! ### The reachable-state invariant -/

/-- The inductive invariant of the engine: well shape and compactness, the
level/score relation, rack capacity and absence of rack runs, and the
catcher bound. -/
def Inv (g : Game) : Prop :=
  wellDims g.well ∧
  (∀ c ∈ g.well, colCompact c = true) ∧
  g.level = g.score / LEVEL_UP_THRESHOLD + 1 ∧
  g.rack.length ≤ RACK_CAPACITY ∧
  hasRun3 g.rack = false ∧
  g.catcherColumn < WELL_COLS

theorem inv_init (seed : Nat) : Inv (Game.init seed) := by
  refine ⟨⟨rfl, ?_⟩, ?_, ?_, ?_, rfl, ?_⟩
  · intro c hc
    rw [List.eq_of_mem_replicate hc]
    rfl
  · intro c hc
    rw [List.eq_of_mem_replicate hc]
    rfl
  · show (1 : Nat) = 0 / LEVEL_UP_THRESHOLD + 1
    rfl
  · show (0 : Nat) ≤ RACK_CAPACITY
    decide
  · show (2 : Nat) < WELL_COLS
    decide

theorem reset_eq_init (g : Game) : g.reset = Game.init g.seed := rfl

theorem hasRun3_tail {a : Nat} {t : List Nat} (h : hasRun3 (a :: t) = false) :
    hasRun3 t = false := by
  match t with
  | [] => rfl
  | [_] => rfl
  | b :: c :: rest =>
    simp only [hasRun3, Bool.or_eq_false_iff] at h
    exact h.2

theorem inv_loseLife {g : Game} (h : Inv g) (r : String) : Inv (g.loseLife r) := by
  obtain ⟨hd, hc, hl, hr, hn, hcat⟩ := h
  refine ⟨?_, ?_, ?_, ?_, ?_, ?_⟩
  · rw [loseLife_well]; exact hd
  · rw [loseLife_well]; exact hc
  · rw [loseLife_level, loseLife_score]; exact hl
  · rw [loseLife_rack]; exact hr
  · rw [loseLife_rack]; exact hn
  · rw [loseLife_catcher]; exact hcat

theorem inv_dropTile {g : Game} (h : Inv g) (col ci : Nat) :
    Inv (g.dropTileIntoWell col ci) := by
  obtain ⟨hd, hc, hl, hr, hn, hcat⟩ := h
  obtain ⟨hd2, hc2⟩ := dropTile_shape hd hc col ci
  obtain ⟨hs, hlv, hrk, hcc, hp, hcv⟩ := dropTile_frame g col ci
  refine ⟨hd2, hc2, ?_, ?_, ?_, ?_⟩
  · rw [hs, hlv]; exact hl
  · rw [hrk]; exact hr
  · rw [hrk]; exact hn
  · rw [hcc]; exact hcat

/-- checkRackMatches establishes the full invariant; the input rack may hold
a (single, freshly created) run, which the cascade removes. -/
theorem inv_checkRackMatches {g : Game} (hd : wellDims g.well)
    (hc : ∀ c ∈ g.well, colCompact c = true)
    (hl : g.level = g.score / LEVEL_UP_THRESHOLD + 1)
    (hr : g.rack.length ≤ RACK_CAPACITY)
    (hcat : g.catcherColumn < WELL_COLS) : Inv g.checkRackMatches := by
  obtain ⟨hwell, hcatch, _, _, _, _, hlen, _, hrun, hlevel⟩ := crm_main g
  refine ⟨?_, ?_, hlevel hl, le_trans hlen hr, hrun, ?_⟩
  · rw [hwell]; exact hd
  · rw [hwell]; exact hc
  · rw [hcatch]; exact hcat

theorem inv_handle {g : Game} (h : Inv g) (t : Tile) : Inv (g.handleTileReachedEnd t) := by
  obtain ⟨hd, hc, hl, hr, hn, hcat⟩ := h
  unfold Game.handleTileReachedEnd
  split
  · split
    · rename_i hroom
      refine inv_checkRackMatches hd hc hl ?_ hcat
      simp only [List.length_append, List.length_cons, List.length_nil]
      unfold RACK_CAPACITY at *
      omega
    · exact inv_loseLife ⟨hd, hc, hl, hr, hn, hcat⟩ _
  · obtain ⟨hd2, hc2, hl2, hr2, hn2, hcat2⟩ :=
      inv_dropTile ⟨hd, hc, hl, hr, hn, hcat⟩ t.column t.colorIndex
    exact ⟨hd2, hc2, hl2, hr2, hn2, hcat2⟩

theorem removeMatches_dims {w : Well} (hd : wellDims w) (ms : List MatchRec) :
    wellDims (removeMatches w ms) := by
  unfold removeMatches
  refine foldl_preserve ?_ ms w hd
  intro w1 m hw
  refine foldl_preserve ?_ (matchTiles m) w1 hw
  intro w2 t hw2
  exact setCell_dims hw2 t.1 t.2 none

theorem applyGravity_dims {w : Well} (hd : wellDims w) : wellDims (applyGravityW w) := by
  refine ⟨by simp [applyGravityW, hd.1], ?_⟩
  intro c hc
  obtain ⟨c0, _, rfl⟩ := List.mem_map.mp hc
  exact gravityCol_length c0

theorem applyGravity_compact (w : Well) : ∀ c ∈ applyGravityW w, colCompact c = true := by
  intro c hc
  obtain ⟨c0, _, rfl⟩ := List.mem_map.mp hc
  exact gravityCol_compact c0

/-- checkMatches with its lets resolved. -/
theorem checkMatches_eq (g : Game) :
    g.checkMatches =
      if (findMatches g.well).length = 0 then g
      else
        Game.checkLevelUp
          { g with
            well := applyGravityW (removeMatches g.well (findMatches g.well)),
            score := g.score +
              ((findMatches g.well).map fun m => sizePoints (matchTiles m).length).sum,
            events := g.events ++ [.matchFound (findMatches g.well)
              (((findMatches g.well).map fun m => sizePoints (matchTiles m).length).sum)] } :=
  rfl

theorem inv_checkMatches {g : Game} (h : Inv g) : Inv g.checkMatches := by
  obtain ⟨hd, hc, hl, hr, hn, hcat⟩ := h
  rw [checkMatches_eq]
  split
  · exact ⟨hd, hc, hl, hr, hn, hcat⟩
  · refine ⟨?_, ?_, ?_, ?_, ?_, ?_⟩
    · rw [checkLevelUp_well]
      exact applyGravity_dims (removeMatches_dims hd _)
    · rw [checkLevelUp_well]
      exact applyGravity_compact _
    · rw [checkLevelUp_score]
      exact checkLevelUp_level (Nat.le_add_right _ _) hl
    · rw [checkLevelUp_rack]; exact hr
    · rw [checkLevelUp_rack]; exact hn
    · rw [checkLevelUp_catcher]; exact hcat

@[simp] theorem spawnTile_well (g : Game) : (g.spawnTile).well = g.well := by
  unfold Game.spawnTile; rfl

@[simp] theorem spawnTile_rack (g : Game) : (g.spawnTile).rack = g.rack := by
  unfold Game.spawnTile; rfl

@[simp] theorem spawnTile_score (g : Game) : (g.spawnTile).score = g.score := by
  unfold Game.spawnTile; rfl

@[simp] theorem spawnTile_level (g : Game) : (g.spawnTile).level = g.level := by
  unfold Game.spawnTile; rfl

@[simp] theorem spawnTile_catcher (g : Game) : (g.spawnTile).catcherColumn = g.catcherColumn := by
  unfold Game.spawnTile; rfl

@[simp] theorem spawnTile_lives (g : Game) : (g.spawnTile).lives = g.lives := by
  unfold Game.spawnTile; rfl

theorem inv_spawnTile {g : Game} (h : Inv g) : Inv g.spawnTile := by
  obtain ⟨hd, hc, hl, hr, hn, hcat⟩ := h
  refine ⟨?_, ?_, ?_, ?_, ?_, ?_⟩
  · rw [spawnTile_well]; exact hd
  · rw [spawnTile_well]; exact hc
  · rw [spawnTile_level, spawnTile_score]; exact hl
  · rw [spawnTile_rack]; exact hr
  · rw [spawnTile_rack]; exact hn
  · rw [spawnTile_catcher]; exact hcat

theorem inv_updateSpawning {g : Game} (h : Inv g) : Inv g.updateSpawning := by
  obtain ⟨hd, hc, hl, hr, hn, hcat⟩ := h
  simp only [Game.updateSpawning]
  split
  · exact inv_spawnTile ⟨hd, hc, hl, hr, hn, hcat⟩
  · exact ⟨hd, hc, hl, hr, hn, hcat⟩

/-- updateConveyor with its lets resolved. -/
theorem updateConveyor_eq (g : Game) :
    g.updateConveyor =
      ((g.conveyorTiles.map fun t =>
          { t with position := t.position + g.getTileSpeed }).filter
          (fun t => decide (100 * (CONVEYOR_LENGTH : Int) ≤ t.position))).reverse.foldl
        Game.handleTileReachedEnd
        { g with
          conveyorTiles := (g.conveyorTiles.map fun t =>
            { t with position := t.position + g.getTileSpeed }).filter
            (fun t => decide (t.position < 100 * (CONVEYOR_LENGTH : Int))) } :=
  rfl

theorem inv_updateConveyor {g : Game} (h : Inv g) : Inv g.updateConveyor := by
  obtain ⟨hd, hc, hl, hr, hn, hcat⟩ := h
  rw [updateConveyor_eq]
  apply foldl_preserve
  · intro b t hbb
    exact inv_handle hbb t
  · exact ⟨hd, hc, hl, hr, hn, hcat⟩

theorem inv_update {g : Game} (h : Inv g) : Inv g.update := by
  unfold Game.update
  split
  · exact h
  · obtain ⟨hd, hc, hl, hr, hn, hcat⟩ := h
    exact inv_checkMatches (inv_updateConveyor (inv_updateSpawning ⟨hd, hc, hl, hr, hn, hcat⟩))

theorem inv_moveLeft {g : Game} (h : Inv g) : Inv (g.moveLeft).2 := by
  obtain ⟨hd, hc, hl, hr, hn, hcat⟩ := h
  unfold Game.moveLeft
  split
  · exact ⟨hd, hc, hl, hr, hn, Nat.lt_of_le_of_lt (Nat.sub_le _ _) hcat⟩
  · exact ⟨hd, hc, hl, hr, hn, hcat⟩

theorem inv_moveRight {g : Game} (h : Inv g) : Inv (g.moveRight).2 := by
  obtain ⟨hd, hc, hl, hr, hn, hcat⟩ := h
  unfold Game.moveRight
  split
  · rename_i hcond
    exact ⟨hd, hc, hl, hr, hn, Nat.add_lt_of_lt_sub hcond.2.2⟩
  · exact ⟨hd, hc, hl, hr, hn, hcat⟩

theorem inv_dropFromRack {g : Game} (h : Inv g) : Inv (g.dropFromRack).2 := by
  obtain ⟨hd, hc, hl, hr, hn, hcat⟩ := h
  unfold Game.dropFromRack
  split
  · split
    · exact ⟨hd, hc, hl, hr, hn, hcat⟩
    · rename_i ci rest heq
      rw [heq] at hr hn
      have hr2 : rest.length ≤ RACK_CAPACITY := by
        simp only [List.length_cons] at hr
        omega
      have hInv2 : Inv { g with rack := rest } := ⟨hd, hc, hl, hr2, hasRun3_tail hn, hcat⟩
      obtain ⟨hd2, hc2, hl2, hr2b, hn2b, hcat2⟩ := inv_dropTile hInv2 g.catcherColumn ci
      exact ⟨hd2, hc2, hl2, hr2b, hn2b, hcat2⟩
  · exact ⟨hd, hc, hl, hr, hn, hcat⟩

theorem inv_togglePause {g : Game} (h : Inv g) : Inv g.togglePause := by
  obtain ⟨hd, hc, hl, hr, hn, hcat⟩ := h
  unfold Game.togglePause
  split
  · exact ⟨hd, hc, hl, hr, hn, hcat⟩
  · exact ⟨hd, hc, hl, hr, hn, hcat⟩

theorem inv_reset (g : Game) : Inv g.reset := by
  rw [reset_eq_init]
  exact inv_init g.seed

/-- Every reachable state satisfies the inductive invariant. -/
theorem inv_of_reach {g : Game} (h : Reach g) : Inv g := by
  induction h with
  | init seed => exact inv_init seed
  | update _ ih => exact inv_update ih
  | moveLeft _ ih => exact inv_moveLeft ih
  | moveRight _ ih => exact inv_moveRight ih
  | dropFromRack _ ih => exact inv_dropFromRack ih
  | togglePause _ ih => exact inv_togglePause ih
  | reset _ => exact inv_reset _

/-! ### Single-step equations for the rack cascade -/

theorem crm_stop {g : Game} (h : g.rack.length < 3) : g.checkRackMatches = g := by
  rw [Game.checkRackMatches.eq_def, if_pos h]

theorem crm_none {g : Game} (h3 : ¬g.rack.length < 3) (h : findRackRun g.rack = none) :
    g.checkRackMatches = g := by
  rw [Game.checkRackMatches.eq_def, if_neg h3]
  split
  · rfl
  · rename_i s l c heq
    rw [h] at heq
    exact absurd heq (by simp)

theorem crm_step {g : Game} {start len color : Nat}
    (hlong : ¬g.rack.length < 3)
    (hfound : findRackRun g.rack = some (start, len, color)) :
    g.checkRackMatches =
      Game.checkRackMatches (Game.checkLevelUp
        { g with
          rack := g.rack.take start ++ g.rack.drop (start + len),
          score := g.score + sizePoints len,
          events := g.events ++
            [.matchFound [.rackRun ((g.rack.drop start).take len) color] (sizePoints len)] }) := by
  rw [Game.checkRackMatches.eq_def, if_neg hlong]
  split
  · rename_i heq
    rw [hfound] at heq
    exact absurd heq (by simp)
  · rename_i s l c heq
    rw [hfound] at heq
    simp only [Option.some.injEq, Prod.mk.injEq] at heq
    obtain ⟨hs, hl2, hc2⟩ := heq
    subst hs; subst hl2; subst hc2
    rfl

/-! ### Claim theorems -/

/-- C2: in every state reachable from a fresh or reset engine through the
public API (update, moveLeft, moveRight, dropFromRack, togglePause, reset),
the stored level equals floor(score / 1000) + 1 at the moment each public
call returns. -/
theorem claim_C2_level_invariant {g : Game} (h : Reach g) :
    g.level = g.score / 1000 + 1 :=
  (inv_of_reach h).2.2.1

theorem claim_C2_witness : (Game.init 0).level = (Game.init 0).score / 1000 + 1 :=
  claim_C2_level_invariant (Reach.init 0)

/-- Reading a column past the grid gives an empty cell. -/
theorem wget_oob {w : Well} {col : Nat} (h : w.length ≤ col) (r : Nat) :
    wget w col r = none := by
  unfold wget
  rw [List.getD_eq_getElem?_getD w col, List.getElem?_eq_none h]
  rfl

/-- C3: for every reachable state, immediately after any update() call
completes, every well column has its non-empty cells occupying a contiguous
suffix ending at the bottom row: no empty cell lies below a filled cell in
any column. -/
theorem claim_C3_well_compact {g : Game} (h : Reach g) :
    ∀ col r1 r2, r1 ≤ r2 → r2 < WELL_ROWS →
      wget (g.update).well col r1 ≠ none → wget (g.update).well col r2 ≠ none := by
  obtain ⟨hd, hc, -, -, -, -⟩ := inv_of_reach (Reach.update h)
  intro col r1 r2 h12 hr2 hfill
  by_cases hcol : col < (g.update).well.length
  · have hcompact := hc _ (getD_mem hcol)
    have hlen := hd.2 _ (getD_mem hcol)
    exact (colCompact_iff _).mp hcompact r1 r2 h12 (by rw [hlen]; exact hr2) hfill
  · exact absurd (wget_oob (by omega) r1) hfill

/-- Iterated ticks (defined before its later general form to keep the C3
witness closed over a reachable state with a filled well cell). -/
def updatesW : Nat → Game → Game
  | 0, g => g
  | n + 1, g => updatesW n g.update

theorem updatesW_reach {g : Game} (h : Reach g) : ∀ n, Reach (updatesW n g) := by
  intro n
  induction n generalizing g with
  | zero => exact h
  | succ k ih => exact ih (Reach.update h)

set_option maxRecDepth 200000 in
set_option maxHeartbeats 8000000 in
theorem claim_C3_witness :
    wget ((updatesW 185 (Game.init 0)).update).well 3 4 ≠ none :=
  claim_C3_well_compact (updatesW_reach (Reach.init 0) 185) 3 4 4
    (by decide) (by decide) (by decide)

/-- C8: getEvents is a pure read — it returns the event buffer, leaves the
engine unchanged, and two reads without an intervening update return equal
lists. -/
theorem claim_C8_getEvents_pure (g : Game) :
    (g.getEvents).2 = g ∧
    (g.getEvents).1 = (((g.getEvents).2).getEvents).1 ∧
    (g.getEvents).1 = g.events :=
  ⟨rfl, rfl, rfl⟩

/-- C9: the catcher starts at column 2 on a fresh or reset engine;
moveLeft/moveRight shift it by -1/+1 and return true exactly when the game
is not paused, not over, and the catcher is not at the relevant bound;
otherwise they return false and leave the state unchanged; and in every
reachable state the catcher column lies in [0, 4]. -/
theorem claim_C9_catcher :
    (∀ seed, (Game.init seed).catcherColumn = 2) ∧
    (∀ g : Game, (g.reset).catcherColumn = 2) ∧
    (∀ g : Game,
      ((g.moveLeft).1 = true ↔
        g.paused = false ∧ g.gameOver = false ∧ 0 < g.catcherColumn) ∧
      ((g.moveLeft).1 = true →
        (g.moveLeft).2.catcherColumn = g.catcherColumn - 1) ∧
      ((g.moveLeft).1 = false → (g.moveLeft).2 = g) ∧
      ((g.moveRight).1 = true ↔
        g.paused = false ∧ g.gameOver = false ∧ g.catcherColumn < 4) ∧
      ((g.moveRight).1 = true →
        (g.moveRight).2.catcherColumn = g.catcherColumn + 1) ∧
      ((g.moveRight).1 = false → (g.moveRight).2 = g)) ∧
    (∀ g : Game, Reach g → g.catcherColumn ≤ 4) := by
  refine ⟨fun _ => rfl, fun _ => rfl, ?_, ?_⟩
  · intro g
    unfold Game.moveLeft Game.moveRight WELL_COLS
    refine ⟨?_, ?_, ?_, ?_, ?_, ?_⟩ <;> split <;> simp_all
  · intro g h
    have := (inv_of_reach h).2.2.2.2.2
    unfold WELL_COLS at this
    omega

theorem claim_C9_witness :
    (Game.init 5).catcherColumn = 2 ∧
    ((Game.init 5).moveRight).1 = true ∧
    (((Game.init 5).moveRight).1 = true →
      ((Game.init 5).moveRight).2.catcherColumn = (Game.init 5).catcherColumn + 1) ∧
    (Game.init 5).catcherColumn ≤ 4 :=
  ⟨claim_C9_catcher.1 5, by decide,
   (claim_C9_catcher.2.2.1 (Game.init 5)).2.2.2.2.1,
   claim_C9_catcher.2.2.2 _ (Reach.init 5)⟩

/-- C10: in every reachable state, at the moment each public call returns,
the rack contains no contiguous run of 3 or more equal color indices. -/
theorem claim_C10_rack_no_run {g : Game} (h : Reach g) : hasRun3 g.rack = false :=
  (inv_of_reach h).2.2.2.2.1

theorem claim_C10_witness : hasRun3 (Game.init 2).rack = false :=
  claim_C10_rack_no_run (Reach.init 2)

/-- A row that the descending search reports as empty is inside the column. -/
theorem lt_length_of_getD_some_eq_none {c : List (Option Nat)} {r : Nat}
    (h : c.getD r (some 0) = none) : r < c.length := by
  by_contra hc
  rw [List.getD_eq_getElem?_getD, List.getElem?_eq_none (by omega)] at h
  simp at h

/-- Reading back the freshly set cell. -/
theorem wget_setCell_self {w : Well} {col row : Nat}
    (hcol : col < w.length) (hrow : row < (w.getD col []).length) (v : Option Nat) :
    wget (setCell w col row v) col row = v := by
  unfold wget setCell
  rw [getD_set_self hcol _ [], getD_set_self hrow v none]

/-- A successful lowest-empty-row search implies the column is a real column
of the grid. -/
theorem col_lt_of_lowestEmptyRow_some {w : Well} {col row : Nat}
    (h : lowestEmptyRow (w.getD col []) = some row) : col < w.length := by
  by_contra hcc
  rw [List.getD_eq_getElem?_getD, List.getElem?_eq_none (by omega)] at h
  simp only [Option.getD_none, lowestEmptyRow_nil] at h
  exact absurd h (by simp)

/-- C4 (amended: the reason string the code emits is "Well column full"):
whenever a tile is routed into a well column with no empty cell — a conveyor
tile falling at its own column, or dropFromRack into the catcher's column —
lives decrement by exactly 1, a life-lost event with reason "Well column
full" is emitted, and the well grid is left entirely unchanged; when the
column has an empty cell, a tile-fall event is emitted and the falling
tile's color is placed into that cell. -/
theorem claim_C4_well_overflow :
    (∀ (g : Game) (t : Tile), t.column ≠ g.catcherColumn →
      (∀ r, r < WELL_ROWS → wget g.well t.column r ≠ none) →
      (g.handleTileReachedEnd t).lives = g.lives - 1 ∧
      (g.handleTileReachedEnd t).well = g.well ∧
      Event.lifeLost (g.lives - 1) "Well column full" ∈ (g.handleTileReachedEnd t).events) ∧
    (∀ (g : Game) (c : Nat) (rest : List Nat),
      g.paused = false → g.gameOver = false → g.rack = c :: rest →
      (∀ r, r < WELL_ROWS → wget g.well g.catcherColumn r ≠ none) →
      ((g.dropFromRack).2.lives = g.lives - 1 ∧
       (g.dropFromRack).2.well = g.well ∧
       Event.lifeLost (g.lives - 1) "Well column full" ∈ (g.dropFromRack).2.events)) ∧
    (∀ (g : Game) (t : Tile) (row : Nat), t.column ≠ g.catcherColumn →
      lowestEmptyRow (g.well.getD t.column []) = some row →
      Event.tileFall t.column t.colorIndex ∈ (g.handleTileReachedEnd t).events ∧
      wget (g.handleTileReachedEnd t).well t.column row = some t.colorIndex) := by
  refine ⟨?_, ?_, ?_⟩
  · intro g t hne hfull
    unfold Game.handleTileReachedEnd
    rw [if_neg hne, dropTileIntoWell_full hfull t.colorIndex]
    refine ⟨by simp, by simp, ?_⟩
    simp only [List.mem_append]
    exact Or.inl (lifeLost_mem_loseLife g "Well column full")
  · intro g c rest hp hgo hrack hfull
    unfold Game.dropFromRack
    split
    · split
      · rename_i heq
        rw [hrack] at heq
        exact absurd heq (by simp)
      · rename_i ci rest2 heq
        have hfull2 : ∀ r, r < WELL_ROWS →
            wget ({ g with rack := rest2 } : Game).well
              ({ g with rack := rest2 } : Game).catcherColumn r ≠ none := hfull
        rw [dropTileIntoWell_full hfull2 ci]
        refine ⟨by simp, by simp, ?_⟩
        simp only [List.mem_append]
        exact Or.inl (lifeLost_mem_loseLife { g with rack := rest2 } "Well column full")
    · rename_i hcond
      exact absurd ⟨hp, hgo, by rw [hrack]; simp⟩ hcond
  · intro g t row hne hler
    unfold Game.handleTileReachedEnd
    rw [if_neg hne, dropTileIntoWell_notFull hler t.colorIndex]
    refine ⟨by simp, ?_⟩
    have hcol : t.column < g.well.length := col_lt_of_lowestEmptyRow_some hler
    have hrow : row < (g.well.getD t.column []).length :=
      lt_length_of_getD_some_eq_none (lerGo_some _ 5 row hler).2.1
    exact wget_setCell_self hcol hrow (some t.colorIndex)

/-- The full-column input used to exhibit the reason-string mismatch. -/
def fullColWell : Well :=
  [[some 0, some 1, some 0, some 1, some 0],
   List.replicate 5 none, List.replicate 5 none,
   List.replicate 5 none, List.replicate 5 none]

def gC4 : Game := { Game.init 4 with well := fullColWell }

def tC4 : Tile := { id := 0, position := 1000, colorIndex := 2, column := 0 }

/-- C4 counterexample: with well column 0 full and the catcher at column 2,
the tile at column 0 triggers a life loss, but the reason string is
"Well column full", not "well column full" as the claim states. -/
theorem claim_C4_counterexample :
    (∀ r, r < WELL_ROWS → wget gC4.well tC4.column r ≠ none) ∧
    tC4.column ≠ gC4.catcherColumn ∧
    (gC4.handleTileReachedEnd tC4).lives = gC4.lives - 1 ∧
    (gC4.handleTileReachedEnd tC4).events =
      [Event.lifeLost 2 "Well column full", Event.tileFall 0 2] ∧
    (∀ n : Int, Event.lifeLost n "well column full" ∉ (gC4.handleTileReachedEnd tC4).events) := by
  refine ⟨by decide, by decide, by decide, by decide, ?_⟩
  intro n hmem
  have hev : (gC4.handleTileReachedEnd tC4).events =
      [Event.lifeLost 2 "Well column full", Event.tileFall 0 2] := by decide
  rw [hev] at hmem
  simp only [List.mem_cons, List.not_mem_nil, or_false] at hmem
  rcases hmem with hmem | hmem
  · rw [Event.lifeLost.injEq] at hmem
    exact absurd hmem.2 (by decide)
  · exact Event.noConfusion hmem

/-- C5 (amended: the reason string the code emits is "Rack overflow"):
whenever a tile reaches the end of the conveyor at the catcher's column
while the rack already holds 5 entries, the rack and the well are unchanged,
lives decrement by exactly 1, and a life-lost event with reason
"Rack overflow" is emitted; the rack never exceeds length 5 in any
reachable state. -/
theorem claim_C5_rack_overflow :
    (∀ (g : Game) (t : Tile), t.column = g.catcherColumn → g.rack.length = 5 →
      (g.handleTileReachedEnd t).rack = g.rack ∧
      (g.handleTileReachedEnd t).well = g.well ∧
      (g.handleTileReachedEnd t).lives = g.lives - 1 ∧
      Event.lifeLost (g.lives - 1) "Rack overflow" ∈ (g.handleTileReachedEnd t).events) ∧
    (∀ g : Game, Reach g → g.rack.length ≤ 5) := by
  constructor
  · intro g t hcol hlen
    unfold Game.handleTileReachedEnd
    rw [if_pos hcol, if_neg (by rw [hlen]; unfold RACK_CAPACITY; omega)]
    exact ⟨by simp, by simp, by simp, lifeLost_mem_loseLife g "Rack overflow"⟩
  · intro g h
    exact (inv_of_reach h).2.2.2.1

def gC5 : Game := { Game.init 3 with rack := [0, 1, 0, 1, 0] }

def tC5 : Tile := { id := 0, position := 1000, colorIndex := 2, column := 2 }

/-- C5 counterexample: a catch attempted with a full rack loses a life, but
the reason string is "Rack overflow", not "rack overflow" as the claim
states. -/
theorem claim_C5_counterexample :
    tC5.column = gC5.catcherColumn ∧
    gC5.rack.length = 5 ∧
    (gC5.handleTileReachedEnd tC5).events = [Event.lifeLost 2 "Rack overflow"] ∧
    (∀ n : Int, Event.lifeLost n "rack overflow" ∉ (gC5.handleTileReachedEnd tC5).events) := by
  refine ⟨rfl, rfl, by decide, ?_⟩
  intro n hmem
  have hev : (gC5.handleTileReachedEnd tC5).events = [Event.lifeLost 2 "Rack overflow"] := by
    decide
  rw [hev] at hmem
  simp only [List.mem_cons, List.not_mem_nil, or_false] at hmem
  rw [Event.lifeLost.injEq] at hmem
  exact absurd hmem.2 (by decide)

/-! ### C7: the rack cascade on [A, A, A, B, B, B] -/

theorem frr_AAAB {A B : Nat} (hAB : A ≠ B) :
    findRackRun [A, A, A, B, B, B] = some (0, 3, A) := by
  simp [findRackRun, findRackRunGo, runLen, runExt, List.get?, hAB, Ne.symm hAB]

theorem frr_BBB (B : Nat) : findRackRun [B, B, B] = some (0, 3, B) := by
  simp [findRackRun, findRackRunGo, runLen, runExt, List.get?]

/-- C7: rack matches cascade within one triggering call — on a rack
[A, A, A, B, B, B] with A different from B, checkRackMatches splices out
both runs in the same call, leaving the rack empty and adding 100 points
per run of 3 (200 in total, per the same 3/4/5+ table as well matches). -/
theorem claim_C7_rack_cascade (g : Game) (A B : Nat) (hAB : A ≠ B)
    (hrack : g.rack = [A, A, A, B, B, B]) :
    (g.checkRackMatches).rack = [] ∧ (g.checkRackMatches).score = g.score + 200 := by
  have hstep1 := @crm_step g 0 3 A
    (by rw [hrack]; simp) (by rw [hrack]; exact frr_AAAB hAB)
  rw [hstep1]
  have hrack1 : (Game.checkLevelUp
      { g with
        rack := g.rack.take 0 ++ g.rack.drop (0 + 3),
        score := g.score + sizePoints 3,
        events := g.events ++
          [.matchFound [.rackRun ((g.rack.drop 0).take 3) A] (sizePoints 3)] }).rack
      = [B, B, B] := by
    rw [checkLevelUp_rack]
    rw [hrack]
    rfl
  have hscore1 : (Game.checkLevelUp
      { g with
        rack := g.rack.take 0 ++ g.rack.drop (0 + 3),
        score := g.score + sizePoints 3,
        events := g.events ++
          [.matchFound [.rackRun ((g.rack.drop 0).take 3) A] (sizePoints 3)] }).score
      = g.score + 100 := by
    rw [checkLevelUp_score]
    rfl
  have hstep2 := @crm_step (Game.checkLevelUp
      { g with
        rack := g.rack.take 0 ++ g.rack.drop (0 + 3),
        score := g.score + sizePoints 3,
        events := g.events ++
          [.matchFound [.rackRun ((g.rack.drop 0).take 3) A] (sizePoints 3)] })
    0 3 B
    (by rw [hrack1]; simp) (by rw [hrack1]; exact frr_BBB B)
  rw [hstep2]
  set g1 := Game.checkLevelUp
      { g with
        rack := g.rack.take 0 ++ g.rack.drop (0 + 3),
        score := g.score + sizePoints 3,
        events := g.events ++
          [.matchFound [.rackRun ((g.rack.drop 0).take 3) A] (sizePoints 3)] } with hg1
  have hrack2 : (Game.checkLevelUp
      { g1 with
        rack := g1.rack.take 0 ++ g1.rack.drop (0 + 3),
        score := g1.score + sizePoints 3,
        events := g1.events ++
          [.matchFound [.rackRun ((g1.rack.drop 0).take 3) B] (sizePoints 3)] }).rack
      = [] := by
    rw [checkLevelUp_rack, hrack1]
    rfl
  have hscore2 : (Game.checkLevelUp
      { g1 with
        rack := g1.rack.take 0 ++ g1.rack.drop (0 + 3),
        score := g1.score + sizePoints 3,
        events := g1.events ++
          [.matchFound [.rackRun ((g1.rack.drop 0).take 3) B] (sizePoints 3)] }).score
      = g.score + 200 := by
    rw [checkLevelUp_score]
    show g1.score + sizePoints 3 = g.score + 200
    rw [hscore1, show sizePoints 3 = 100 from rfl]
  rw [crm_stop (by rw [hrack2]; simp)]
  exact ⟨hrack2, hscore2⟩

theorem claim_C4_witness :
    (gC4.handleTileReachedEnd tC4).lives = gC4.lives - 1 ∧
    (gC4.handleTileReachedEnd tC4).well = gC4.well ∧
    Event.lifeLost (gC4.lives - 1) "Well column full" ∈ (gC4.handleTileReachedEnd tC4).events :=
  claim_C4_well_overflow.1 gC4 tC4 (by decide) (by decide)

theorem claim_C5_witness :
    ((gC5.handleTileReachedEnd tC5).rack = gC5.rack ∧
     (gC5.handleTileReachedEnd tC5).well = gC5.well ∧
     (gC5.handleTileReachedEnd tC5).lives = gC5.lives - 1 ∧
     Event.lifeLost (gC5.lives - 1) "Rack overflow" ∈ (gC5.handleTileReachedEnd tC5).events) ∧
    (Game.init 9).rack.length ≤ 5 :=
  ⟨claim_C5_rack_overflow.1 gC5 tC5 rfl rfl, claim_C5_rack_overflow.2 _ (Reach.init 9)⟩

theorem claim_C7_witness :
    (0 : Nat) ≠ (1 : Nat) ∧
    (({ Game.init 6 with rack := [0, 0, 0, 1, 1, 1] } : Game).checkRackMatches).rack = [] ∧
    (({ Game.init 6 with rack := [0, 0, 0, 1, 1, 1] } : Game).checkRackMatches).score =
      ({ Game.init 6 with rack := [0, 0, 0, 1, 1, 1] } : Game).score + 200 := by
  have h := claim_C7_rack_cascade { Game.init 6 with rack := [0, 0, 0, 1, 1, 1] } 0 1
    (by decide) rfl
  exact ⟨by decide, h.1, h.2⟩

/-! ### C6: the event buffer across update calls -/

/-- C6 (amended): update() clears and rebuilds the event buffer only when
the game is neither paused nor over — an active call's resulting events do
not depend on the previous buffer; a paused or game-over update returns the
state (events included) unchanged, so getEvents may still return events from
an earlier tick after such a call. -/
theorem update_eq (g : Game) :
    g.update =
      if (g.paused || g.gameOver) = true then g
      else
        Game.checkMatches (Game.updateConveyor (Game.updateSpawning
          { g with frameCount := g.frameCount + 1, events := [] })) := by
  unfold Game.update
  rfl

/-- A paused or finished game ignores update() entirely. -/
theorem update_noop_of_paused {g : Game} (h : (g.paused || g.gameOver) = true) :
    g.update = g := by
  rw [update_eq, if_pos h]

theorem claim_C6_events :
    (∀ g : Game, (g.paused || g.gameOver) = true → g.update = g) ∧
    (∀ (g : Game) (e : List Event), (g.paused || g.gameOver) = false →
      ({ g with events := e } : Game).update = ({ g with events := [] } : Game).update) ∧
    (∀ g : Game, (g.getEvents).1 = g.events) := by
  refine ⟨fun g h => update_noop_of_paused h, ?_, fun g => rfl⟩
  · intro g e h
    rw [update_eq, update_eq]
    dsimp only
    rw [h]
    simp

theorem claim_C6_witness :
    (({ Game.init 7 with paused := true } : Game).paused ||
      ({ Game.init 7 with paused := true } : Game).gameOver) = true ∧
    ({ Game.init 7 with paused := true } : Game).update
      = { Game.init 7 with paused := true } :=
  ⟨by decide, claim_C6_events.1 _ (by decide)⟩

/-- Iterated ticks, for exhibiting a reachable paused state with a stale
nonempty event buffer. -/
def updates : Nat → Game → Game
  | 0, g => g
  | n + 1, g => updates n g.update

def gC6 : Game := (updates 120 (Game.init 1)).togglePause

theorem updates_reach {g : Game} (h : Reach g) : ∀ n, Reach (updates n g) := by
  intro n
  induction n generalizing g with
  | zero => exact h
  | succ k ih => exact ih (Reach.update h)

/-! ### C1: the well-match scan against the specified maximal runs

The specification side is phrased over one line of cells, read through a
getter `f : Nat → Option Nat` of length `n`: a maximal run is a stretch of
at least 3 equal non-empty cells that cannot be extended on either side. -/

/-- Spec-side (from the claim's words): `(s, l, c)` is a maximal run — at
least 3 long, inside the line, all cells equal to color `c`, and not
extendable to the left or to the right. -/
def isMaxRun (f : Nat → Option Nat) (n s l c : Nat) : Bool :=
  decide (3 ≤ l) && decide (s + l ≤ n) &&
  ((List.range l).all fun i => decide (f (s + i) = some c)) &&
  (decide (s = 0) || !decide (f (s - 1) = some c)) &&
  (decide (s + l = n) || !decide (f (s + l) = some c))

theorem isMaxRun_iff {f : Nat → Option Nat} {n s l c : Nat} :
    isMaxRun f n s l c = true ↔
      3 ≤ l ∧ s + l ≤ n ∧ (∀ i, i < l → f (s + i) = some c) ∧
      (s = 0 ∨ f (s - 1) ≠ some c) ∧ (s + l = n ∨ f (s + l) ≠ some c) := by
  simp [isMaxRun, List.all_eq_true, Decidable.or_iff_not_imp_left]
  tauto

/-- The (unique) spec run starting at `s`, if any. -/
def specEntry (f : Nat → Option Nat) (n s : Nat) : Option (Nat × Nat × Nat) :=
  match f s with
  | none => none
  | some c =>
    match (List.range (n + 1)).find? (fun l => isMaxRun f n s l c) with
    | some l => some (s, l, c)
    | none => none

/-- All spec runs starting at column `col` or later, in start order. -/
def specRunsFrom (f : Nat → Option Nat) (n col : Nat) : List (Nat × Nat × Nat) :=
  (List.range' col (n - col)).filterMap (specEntry f n)

/-- All maximal runs of the line, in start order (the reference list the
scan is compared against). -/
def specRuns (f : Nat → Option Nat) (n : Nat) : List (Nat × Nat × Nat) :=
  (List.range n).filterMap (specEntry f n)

theorem specRuns_eq_from (f : Nat → Option Nat) (n : Nat) :
    specRuns f n = specRunsFrom f n 0 := by
  unfold specRuns specRunsFrom
  rw [List.range_eq_range', Nat.sub_zero]

theorem mem_range1 {m s n : Nat} : m ∈ List.range' s n ↔ s ≤ m ∧ m < s + n := by
  rw [List.mem_range']
  constructor
  · rintro ⟨i, hi, rfl⟩
    omega
  · intro ⟨h1, h2⟩
    exact ⟨m - s, by omega, by omega⟩

/-- What the extension loop actually computes: a run of equal cells starting
at `p` that stops at the line end or at a different cell. -/
theorem runExt_spec (f : Nat → Option Nat) (n c : Nat) :
    ∀ fuel p, p ≤ n → n - p ≤ fuel →
      (∀ i, p ≤ i → i < p + runExt f n c p fuel → f i = some c) ∧
      p + runExt f n c p fuel ≤ n ∧
      (p + runExt f n c p fuel = n ∨ f (p + runExt f n c p fuel) ≠ some c) := by
  intro fuel
  induction fuel with
  | zero =>
    intro p hp hf
    have hpn : p = n := by omega
    simp only [runExt]
    exact ⟨fun i h1 h2 => by omega, by omega, Or.inl (by omega)⟩
  | succ m ih =>
    intro p hp hf
    by_cases hcond : p < n ∧ f p = some c
    · rw [runExt, if_pos hcond]
      obtain ⟨ihc, ihb, ihs⟩ := ih (p + 1) (by omega) (by omega)
      refine ⟨?_, by omega, ?_⟩
      · intro i h1 h2
        rcases Nat.eq_or_lt_of_le h1 with rfl | hgt
        · exact hcond.2
        · exact ihc i hgt (by omega)
      · rcases ihs with hn | hne
        · exact Or.inl (by omega)
        · refine Or.inr ?_
          have : p + (runExt f n c (p + 1) m + 1) = p + 1 + runExt f n c (p + 1) m := by omega
          rw [this]
          exact hne
    · rw [runExt, if_neg hcond]
      refine ⟨fun i h1 h2 => by omega, by omega, ?_⟩
      rcases Nat.eq_or_lt_of_le hp with rfl | hlt
      · exact Or.inl (by omega)
      · refine Or.inr ?_
        rw [Nat.add_zero]
        intro hfp
        exact hcond ⟨hlt, hfp⟩

/-- The extension loop is determined by the cells: it stops exactly at `q`
when the cells match up to `q` and `q` is a stopping point. -/
theorem runExt_det (f : Nat → Option Nat) (n c : Nat) :
    ∀ fuel p q, p ≤ q → q ≤ n → q - p ≤ fuel →
      (∀ i, p ≤ i → i < q → f i = some c) →
      (q = n ∨ f q ≠ some c) →
      runExt f n c p fuel = q - p := by
  intro fuel
  induction fuel with
  | zero => intro p q h1 h2 h3 _ _; simp only [runExt]; omega
  | succ m ih =>
    intro p q h1 h2 h3 hcells hstop
    rcases Nat.eq_or_lt_of_le h1 with rfl | hlt
    · by_cases hcond : p < n ∧ f p = some c
      · exfalso
        rcases hstop with hn | hne
        · omega
        · exact hne hcond.2
      · rw [runExt, if_neg hcond]
        omega
    · have hcond : p < n ∧ f p = some c := ⟨by omega, hcells p (le_refl p) hlt⟩
      rw [runExt, if_pos hcond]
      rw [ih (p + 1) q (by omega) h2 (by omega) (fun i hi1 hi2 => hcells i (by omega) hi2) hstop]
      omega

/-- The code's run length delivers matching cells and a stopping point. -/
theorem runLen_spec {f : Nat → Option Nat} {n col c : Nat}
    (hcol : col < n) (hf : f col = some c) :
    1 ≤ runLen f n col c ∧
    col + runLen f n col c ≤ n ∧
    (∀ i, col ≤ i → i < col + runLen f n col c → f i = some c) ∧
    (col + runLen f n col c = n ∨ f (col + runLen f n col c) ≠ some c) := by
  obtain ⟨hc, hb, hs⟩ := runExt_spec f n c n (col + 1) (by omega) (by omega)
  unfold runLen
  refine ⟨by omega, by omega, ?_, ?_⟩
  · intro i h1 h2
    rcases Nat.eq_or_lt_of_le h1 with rfl | hgt
    · exact hf
    · exact hc i hgt (by omega)
  · have harith : col + (runExt f n c (col + 1) n + 1) = col + 1 + runExt f n c (col + 1) n := by
      omega
    rw [harith]
    exact hs

/-- The code's run length is determined by matching cells plus a stop. -/
theorem runLen_det {f : Nat → Option Nat} {n col q c : Nat}
    (h1 : col < q) (h2 : q ≤ n)
    (hcells : ∀ i, col ≤ i → i < q → f i = some c)
    (hstop : q = n ∨ f q ≠ some c) :
    runLen f n col c = q - col := by
  unfold runLen
  rw [runExt_det f n c n (col + 1) q (by omega) h2 (by omega)
    (fun i hi1 hi2 => hcells i (by omega) hi2) hstop]
  omega

/-- Every run of ≥ 3 equal cells that cannot extend right sits inside a
maximal run ending at the same cell. -/
theorem exists_maxRun_line (f : Nat → Option Nat) (n : Nat) :
    ∀ s l c, 3 ≤ l → s + l ≤ n →
      (∀ i, s ≤ i → i < s + l → f i = some c) →
      (s + l = n ∨ f (s + l) ≠ some c) →
      ∃ s0, s0 ≤ s ∧ isMaxRun f n s0 (s + l - s0) c = true := by
  intro s
  induction s using Nat.strong_induction_on with
  | _ s ih =>
    intro l c h3 hb hcells hstop
    by_cases hleft : s = 0 ∨ f (s - 1) ≠ some c
    · refine ⟨s, le_refl s, isMaxRun_iff.mpr ⟨?_, ?_, ?_, hleft, ?_⟩⟩
      · omega
      · omega
      · intro i hi
        have := hcells (s + i) (by omega) (by omega)
        simpa using this
      · have : s + (s + l - s) = s + l := by omega
        rw [this]
        exact hstop
    · push_neg at hleft
      obtain ⟨hs0, hfprev⟩ := hleft
      obtain ⟨s0, hle, hmax⟩ := ih (s - 1) (by omega) (l + 1) c (by omega) (by omega)
        (fun i hi1 hi2 => by
          rcases Nat.eq_or_lt_of_le hi1 with heq | hgt
          · rw [← heq]; exact hfprev
          · exact hcells i (by omega) (by omega))
        (by
          have : s - 1 + (l + 1) = s + l := by omega
          rw [this]
          exact hstop)
      refine ⟨s0, by omega, ?_⟩
      have : s - 1 + (l + 1) - s0 = s + l - s0 := by omega
      rwa [this] at hmax

/-- Maximal runs from the same start coincide. -/
theorem maxRun_unique {f : Nat → Option Nat} {n s l1 l2 c1 c2 : Nat}
    (h1 : isMaxRun f n s l1 c1 = true) (h2 : isMaxRun f n s l2 c2 = true) :
    l1 = l2 ∧ c1 = c2 := by
  rw [isMaxRun_iff] at h1 h2
  obtain ⟨h31, hb1, hc1, -, hs1⟩ := h1
  obtain ⟨h32, hb2, hc2, -, hs2⟩ := h2
  have hcc : c1 = c2 := by
    have e1 := hc1 0 (by omega)
    have e2 := hc2 0 (by omega)
    rw [e1] at e2
    simpa using e2
  subst hcc
  refine ⟨?_, rfl⟩
  by_contra hne
  rcases Nat.lt_or_ge l1 l2 with hlt | hge
  · rcases hs1 with hn | hne2
    · omega
    · exact hne2 (hc2 l1 hlt)
  · have hlt : l2 < l1 := by omega
    rcases hs2 with hn | hne2
    · omega
    · exact hne2 (hc1 l2 hlt)

theorem specEntry_of_max {f : Nat → Option Nat} {n s l c : Nat}
    (hmax : isMaxRun f n s l c = true) : specEntry f n s = some (s, l, c) := by
  have hfs : f s = some c := by
    have := (isMaxRun_iff.mp hmax).2.2.1 0 (by have := (isMaxRun_iff.mp hmax).1; omega)
    simpa using this
  unfold specEntry
  rcases hfind : (List.range (n + 1)).find? (fun l => isMaxRun f n s l c) with _ | l2
  · exfalso
    rw [List.find?_eq_none] at hfind
    refine absurd hmax ?_
    simpa using hfind l (by
      rw [List.mem_range]
      have := (isMaxRun_iff.mp hmax).2.1
      omega)
  · have hl2 := List.find?_some hfind
    obtain ⟨heq, -⟩ := maxRun_unique hl2 hmax
    subst heq
    simp [hfs, hfind]

theorem specEntry_none_of_fnone {f : Nat → Option Nat} {n s : Nat}
    (h : f s = none) : specEntry f n s = none := by
  unfold specEntry
  rw [h]

theorem specEntry_none_of_no_max {f : Nat → Option Nat} {n s c : Nat}
    (hfs : f s = some c) (h : ∀ l, isMaxRun f n s l c = false) :
    specEntry f n s = none := by
  unfold specEntry
  have hfn : (List.range (n + 1)).find? (fun l => isMaxRun f n s l c) = none := by
    rw [List.find?_eq_none]
    intro l _
    rw [h l]
    simp
  simp [hfs, hfn]

theorem specEntry_some_elim {f : Nat → Option Nat} {n s : Nat} {p : Nat × Nat × Nat}
    (h : specEntry f n s = some p) :
    p.1 = s ∧ isMaxRun f n s p.2.1 p.2.2 = true := by
  unfold specEntry at h
  rcases hfs : f s with _ | c
  · simp [hfs] at h
  · simp only [hfs] at h
    rcases hfind : (List.range (n + 1)).find? (fun l => isMaxRun f n s l c) with _ | l
    · simp [hfind] at h
    · simp only [hfind] at h
      injection h with h
      subst h
      exact ⟨rfl, by simpa using List.find?_some hfind⟩

theorem specRunsFrom_nil {f : Nat → Option Nat} {n col : Nat}
    (h : ∀ s, col ≤ s → s < n → specEntry f n s = none) :
    specRunsFrom f n col = [] := by
  unfold specRunsFrom
  rw [List.filterMap_eq_nil_iff]
  intro s hs
  rw [mem_range1] at hs
  exact h s hs.1 (by omega)

theorem specRunsFrom_split {f : Nat → Option Nat} {n col m : Nat} (h : col + m ≤ n) :
    specRunsFrom f n col =
      (List.range' col m).filterMap (specEntry f n) ++ specRunsFrom f n (col + m) := by
  unfold specRunsFrom
  have harith : n - col = (n - (col + m)) + m := by omega
  rw [harith, ← List.range'_append_1, List.filterMap_append]

/-- Strictly inside a run of equal cells no maximal run can start (its left
neighbour has the same color). -/
theorem specEntry_none_mid {f : Nat → Option Nat} {n col len c s : Nat}
    (hcells : ∀ i, col ≤ i → i < col + len → f i = some c)
    (h1 : col < s) (h2 : s < col + len) :
    specEntry f n s = none := by
  have hfs : f s = some c := hcells s (by omega) h2
  refine specEntry_none_of_no_max hfs ?_
  intro l
  cases hb : isMaxRun f n s l c with
  | false => rfl
  | true =>
    exfalso
    obtain ⟨-, -, -, hleft, -⟩ := isMaxRun_iff.mp hb
    rcases hleft with h0 | hne
    · omega
    · exact hne (hcells (s - 1) (by omega) (by omega))

/-- A start whose code run is shorter than 3 heads no maximal run. -/
theorem specEntry_none_short {f : Nat → Option Nat} {n col c : Nat}
    (hcol : col < n) (hf : f col = some c) (hlen : runLen f n col c < 3) :
    specEntry f n col = none := by
  refine specEntry_none_of_no_max hf ?_
  intro l
  cases hb : isMaxRun f n col l c with
  | false => rfl
  | true =>
    exfalso
    obtain ⟨h3, hbound, hcells, -, hstop⟩ := isMaxRun_iff.mp hb
    have hdet := @runLen_det f n col (col + l) c (by omega) hbound
      (fun i hi1 hi2 => by
        have := hcells (i - col) (by omega)
        rwa [show col + (i - col) = i from by omega] at this) hstop
    omega

theorem filterMap_specEntry_run {f : Nat → Option Nat} {n col len c : Nat}
    (h1 : 1 ≤ len)
    (hcells : ∀ i, col ≤ i → i < col + len → f i = some c)
    (hentry : specEntry f n col = some (col, len, c)) :
    (List.range' col len).filterMap (specEntry f n) = [(col, len, c)] := by
  obtain ⟨len', rfl⟩ : ∃ l2, len = l2 + 1 := ⟨len - 1, by omega⟩
  rw [List.range'_succ, List.filterMap_cons]
  simp only [hentry]
  rw [show (List.range' (col + 1) len').filterMap (specEntry f n) = [] from
    List.filterMap_eq_nil_iff.mpr fun s hs => by
      rw [mem_range1] at hs
      exact specEntry_none_mid hcells (by omega) (by omega)]

theorem scanLineGo_succ (f : Nat → Option Nat) (n col fuel : Nat) :
    scanLineGo f n col (fuel + 1) =
      if col + 3 ≤ n then
        match f col with
        | none => scanLineGo f n (col + 1) fuel
        | some c =>
          if 3 ≤ runLen f n col c then
            (col, runLen f n col c, c) :: scanLineGo f n (col + runLen f n col c) fuel
          else scanLineGo f n (col + 1) fuel
      else [] := rfl

/-- The skip-scan reports exactly the maximal runs at or after `col`,
provided no maximal run started before `col` reaches past it. -/
theorem scanLineGo_eq_spec (f : Nat → Option Nat) (n : Nat) :
    ∀ fuel col, n - col ≤ fuel →
      (∀ s l c, isMaxRun f n s l c = true → s < col → s + l ≤ col) →
      scanLineGo f n col fuel = specRunsFrom f n col := by
  intro fuel
  induction fuel with
  | zero =>
    intro col hf _
    have h0 : n - col = 0 := Nat.le_zero.mp hf
    simp [scanLineGo, specRunsFrom, h0]
  | succ m ih =>
    intro col hf hinv
    rw [scanLineGo_succ]
    by_cases hguard : col + 3 ≤ n
    · rw [if_pos hguard]
      have hcoln : col < n := by omega
      rcases hfc : f col with _ | c
      · simp only [hfc]
        have hnone : specEntry f n col = none := specEntry_none_of_fnone hfc
        rw [specRunsFrom_split (show col + 1 ≤ n from by omega)]
        rw [show List.range' col 1 = [col] from rfl]
        simp only [List.filterMap_cons, hnone, List.filterMap_nil, List.nil_append]
        refine ih (col + 1) (by omega) ?_
        intro s l c' hm hs
        rcases Nat.lt_or_ge s col with hlt | hge
        · have := hinv s l c' hm hlt
          omega
        · have hsc : s = col := by omega
          subst hsc
          exfalso
          have hc0 := (isMaxRun_iff.mp hm).2.2.1 0
            (by have := (isMaxRun_iff.mp hm).1; omega)
          rw [Nat.add_zero, hfc] at hc0
          exact Option.noConfusion hc0
      · simp only [hfc]
        by_cases hlen3 : 3 ≤ runLen f n col c
        · rw [if_pos hlen3]
          obtain ⟨h1len, hbound, hcells, hstop⟩ := runLen_spec hcoln hfc
          have hmax : isMaxRun f n col (runLen f n col c) c = true := by
            rw [isMaxRun_iff]
            refine ⟨hlen3, hbound,
              fun i hi => hcells (col + i) (by omega) (by omega), ?_, hstop⟩
            by_cases h0 : col = 0
            · exact Or.inl h0
            · refine Or.inr fun hprev => ?_
              obtain ⟨s0, hs0le, hs0max⟩ :=
                exists_maxRun_line f n (col - 1) (runLen f n col c + 1) c
                  (by omega) (by omega)
                  (fun i hi1 hi2 => by
                    rcases Nat.eq_or_lt_of_le hi1 with heq | hgt
                    · rw [← heq]; exact hprev
                    · exact hcells i (by omega) (by omega))
                  (by
                    rw [show col - 1 + (runLen f n col c + 1) = col + runLen f n col c
                      from by omega]
                    exact hstop)
              have hle := hinv s0 (col - 1 + (runLen f n col c + 1) - s0) c hs0max (by omega)
              omega
          have hentry : specEntry f n col = some (col, runLen f n col c, c) :=
            specEntry_of_max hmax
          rw [specRunsFrom_split hbound, filterMap_specEntry_run (by omega) hcells hentry]
          rw [List.singleton_append]
          have hinv2 : ∀ s l c', isMaxRun f n s l c' = true →
              s < col + runLen f n col c → s + l ≤ col + runLen f n col c := by
            intro s l c' hm hs
            rcases Nat.lt_or_ge s col with hlt | hge
            · have := hinv s l c' hm hlt
              omega
            · rcases Nat.eq_or_lt_of_le hge with heq | hgt
              · subst heq
                obtain ⟨hl, -⟩ := maxRun_unique hm hmax
                omega
              · exfalso
                have hmid := @specEntry_none_mid f n col (runLen f n col c) c s hcells hgt hs
                rw [specEntry_of_max hm] at hmid
                exact Option.noConfusion hmid
          exact congrArg (List.cons _) (ih (col + runLen f n col c) (by omega) hinv2)
        · rw [if_neg hlen3]
          have hnone : specEntry f n col = none :=
            specEntry_none_short hcoln hfc (by omega)
          rw [specRunsFrom_split (show col + 1 ≤ n from by omega)]
          rw [show List.range' col 1 = [col] from rfl]
          simp only [List.filterMap_cons, hnone, List.filterMap_nil, List.nil_append]
          refine ih (col + 1) (by omega) ?_
          intro s l c' hm hs
          rcases Nat.lt_or_ge s col with hlt | hge
          · have := hinv s l c' hm hlt
            omega
          · have hsc : s = col := by omega
            subst hsc
            exfalso
            have hc0 := (isMaxRun_iff.mp hm).2.2.1 0
              (by have := (isMaxRun_iff.mp hm).1; omega)
            rw [Nat.add_zero, hfc] at hc0
            injection hc0 with hc0
            subst hc0
            rw [specEntry_of_max hm] at hnone
            exact Option.noConfusion hnone
    · rw [if_neg hguard]
      symm
      refine specRunsFrom_nil ?_
      intro s hs hsn
      rcases he : specEntry f n s with _ | p
      · rfl
      · exfalso
        obtain ⟨-, hmax⟩ := specEntry_some_elim he
        obtain ⟨h3, hb, -, -, -⟩ := isMaxRun_iff.mp hmax
        omega

/-- The code's full scan equals the list of maximal runs, in start order. -/
theorem scanLine_eq_spec (f : Nat → Option Nat) (n : Nat) :
    scanLine f n = specRuns f n := by
  rw [specRuns_eq_from]
  exact scanLineGo_eq_spec f n n 0 (Nat.sub_le n 0)
    (fun s l c _ hs => absurd hs (Nat.not_lt_zero s))

/-! ### Grid-level spec predicates for the four scan directions -/

/-- Three equal non-empty cells in a row, starting at `(s, r)`. -/
def tripleH (w : Well) (r s : Nat) : Prop :=
  wget w s r ≠ none ∧ wget w (s + 1) r = wget w s r ∧ wget w (s + 2) r = wget w s r

/-- Three equal non-empty cells in a column, starting at `(col, r)`. -/
def tripleV (w : Well) (col r : Nat) : Prop :=
  wget w col r ≠ none ∧ wget w col (r + 1) = wget w col r ∧
    wget w col (r + 2) = wget w col r

/-- Three equal non-empty cells down-right, starting at `(cc, rr)`. -/
def tripleDR (w : Well) (cc rr : Nat) : Prop :=
  wget w cc rr ≠ none ∧ wget w (cc + 1) (rr + 1) = wget w cc rr ∧
    wget w (cc + 2) (rr + 2) = wget w cc rr

/-- Three equal non-empty cells down-left, starting at `(cc, rr)`. -/
def tripleDL (w : Well) (cc rr : Nat) : Prop :=
  wget w cc rr ≠ none ∧ wget w (cc - 1) (rr + 1) = wget w cc rr ∧
    wget w (cc - 2) (rr + 2) = wget w cc rr

instance (w : Well) (r s : Nat) : Decidable (tripleH w r s) := by
  unfold tripleH; infer_instance

instance (w : Well) (col r : Nat) : Decidable (tripleV w col r) := by
  unfold tripleV; infer_instance

instance (w : Well) (cc rr : Nat) : Decidable (tripleDR w cc rr) := by
  unfold tripleDR; infer_instance

instance (w : Well) (cc rr : Nat) : Decidable (tripleDL w cc rr) := by
  unfold tripleDL; infer_instance

/-- The cells of a horizontal run of length `L` starting at `(s, r0)`. -/
def hCellsL (s r0 L : Nat) : List (Nat × Nat) := (List.range L).map fun i => (s + i, r0)

/-- The cells of a vertical run of length `L` starting at `(c0, s)`. -/
def vCellsL (c0 s L : Nat) : List (Nat × Nat) := (List.range L).map fun i => (c0, s + i)

/-- The cells of a down-right diagonal run of length `L` from `(c0, r0)`. -/
def drCells (c0 r0 L : Nat) : List (Nat × Nat) :=
  (List.range L).map fun i => (c0 + i, r0 + i)

/-- The cells of a down-left diagonal run of length `L` from `(c0, r0)`. -/
def dlCells (c0 r0 L : Nat) : List (Nat × Nat) :=
  (List.range L).map fun i => (c0 - i, r0 + i)

/-- Spec-side: a maximal down-right diagonal run of length `L` and color `c`
starting at `(c0, r0)` on the 5×5 grid. -/
def isMaxDR (w : Well) (c0 r0 L c : Nat) : Prop :=
  3 ≤ L ∧ c0 + L ≤ 5 ∧ r0 + L ≤ 5 ∧
  (∀ i, i < L → wget w (c0 + i) (r0 + i) = some c) ∧
  (c0 = 0 ∨ r0 = 0 ∨ wget w (c0 - 1) (r0 - 1) ≠ some c) ∧
  (c0 + L = 5 ∨ r0 + L = 5 ∨ wget w (c0 + L) (r0 + L) ≠ some c)

/-- Spec-side: a maximal down-left diagonal run of length `L` and color `c`
starting at `(c0, r0)` (the top cell) on the 5×5 grid. -/
def isMaxDL (w : Well) (c0 r0 L c : Nat) : Prop :=
  3 ≤ L ∧ L ≤ c0 + 1 ∧ c0 < 5 ∧ r0 + L ≤ 5 ∧
  (∀ i, i < L → wget w (c0 - i) (r0 + i) = some c) ∧
  (c0 = 4 ∨ r0 = 0 ∨ wget w (c0 + 1) (r0 - 1) ≠ some c) ∧
  (L = c0 + 1 ∨ r0 + L = 5 ∨ wget w (c0 - L) (r0 + L) ≠ some c)

instance (w : Well) (c0 r0 L c : Nat) : Decidable (isMaxDR w c0 r0 L c) := by
  unfold isMaxDR; infer_instance

instance (w : Well) (c0 r0 L c : Nat) : Decidable (isMaxDL w c0 r0 L c) := by
  unfold isMaxDL; infer_instance

instance (w : Well) : Decidable (wellDims w) := by
  unfold wellDims; infer_instance

/-- The total points the scan awards for a maximal diagonal run of length
`L`: the full run plus every shorter overlapping suffix of length ≥ 3. -/
def diagPoints (L : Nat) : Nat :=
  ((List.range (L - 2)).map fun k => sizePoints (L - k)).sum

/-! ### Cell-level description of the removal loop -/

theorem getD_oob {α} {l : List α} {n : Nat} (h : l.length ≤ n) (d : α) :
    l.getD n d = d := by
  rw [List.getD_eq_getElem?_getD, List.getElem?_eq_none h]
  rfl

theorem wget_setCell_none (w : Well) (c r col row : Nat) :
    wget (setCell w c r none) col row =
      if col = c ∧ row = r then none else wget w col row := by
  split
  · rename_i hcr
    obtain ⟨rfl, rfl⟩ := hcr
    unfold wget setCell
    by_cases hc : col < w.length
    · rw [getD_set_self hc]
      by_cases hr : row < (w.getD col []).length
      · rw [getD_set_self hr]
      · rw [List.set_eq_of_length_le (by omega)]
        exact getD_oob (by omega) none
    · rw [List.set_eq_of_length_le (by omega)]
      rw [getD_oob (by omega) ([] : List (Option Nat))]
      simp
  · rename_i hcr
    by_cases hcol : col = c
    · subst hcol
      have hrow : row ≠ r := fun hr => hcr ⟨rfl, hr⟩
      unfold wget setCell
      by_cases hc : col < w.length
      · rw [getD_set_self hc, getD_set_ne (fun h => hrow h.symm)]
      · rw [List.set_eq_of_length_le (by omega)]
    · unfold wget setCell
      rw [getD_set_ne (fun h => hcol h.symm)]

theorem wget_clearTiles (ts : List (Nat × Nat)) (w : Well) (col row : Nat) :
    wget (ts.foldl (fun w t => setCell w t.1 t.2 none) w) col row =
      if (col, row) ∈ ts then none else wget w col row := by
  induction ts generalizing w with
  | nil => simp
  | cons t ts ih =>
    rw [List.foldl_cons, ih, wget_setCell_none]
    by_cases hmem : (col, row) ∈ ts
    · rw [if_pos hmem, if_pos (List.mem_cons_of_mem t hmem)]
    · rw [if_neg hmem]
      by_cases hhd : col = t.1 ∧ row = t.2
      · rw [if_pos hhd, if_pos (by
          rw [List.mem_cons]
          exact Or.inl (by rw [hhd.1, hhd.2]))]
      · rw [if_neg hhd, if_neg (by
          rw [List.mem_cons]
          rintro (he | hm)
          · exact hhd ⟨congrArg Prod.fst he, congrArg Prod.snd he⟩
          · exact hmem hm)]

/-- Every write of the removal loop is `null`: a cell ends empty exactly when
some match covers it, and is untouched otherwise. -/
theorem wget_removeMatches (ms : List MatchRec) (w : Well) (col row : Nat) :
    wget (removeMatches w ms) col row =
      if ∃ m ∈ ms, (col, row) ∈ matchTiles m then none else wget w col row := by
  induction ms generalizing w with
  | nil => simp [removeMatches]
  | cons m ms ih =>
    unfold removeMatches at ih ⊢
    rw [List.foldl_cons, ih, wget_clearTiles]
    by_cases hmem : ∃ m2 ∈ ms, (col, row) ∈ matchTiles m2
    · rw [if_pos hmem, if_pos (by
        obtain ⟨m2, hm2, ht⟩ := hmem
        exact ⟨m2, List.mem_cons_of_mem m hm2, ht⟩)]
    · rw [if_neg hmem]
      by_cases hhd : (col, row) ∈ matchTiles m
      · rw [if_pos hhd, if_pos ⟨m, List.mem_cons_self m ms, hhd⟩]
      · rw [if_neg hhd, if_neg (by
          rintro ⟨m2, hm2, ht⟩
          rw [List.mem_cons] at hm2
          rcases hm2 with rfl | hm2
          · exact hhd ht
          · exact hmem ⟨m2, hm2, ht⟩)]

/-! ### Generic list helpers for the single-run and window scenarios -/

theorem filterMap_single {α β : Type} (g : α → Option β) (b : β) :
    ∀ (l : List α) (a : α), a ∈ l → l.Nodup → g a = some b →
      (∀ x ∈ l, x ≠ a → g x = none) → l.filterMap g = [b] := by
  intro l
  induction l with
  | nil => intro a h; cases h
  | cons x xs ih =>
    intro a hmem hnd ha hrest
    rw [List.filterMap_cons]
    rcases List.mem_cons.mp hmem with rfl | hmem2
    · rw [ha]
      rw [List.filterMap_eq_nil_iff.mpr fun y hy =>
        hrest y (List.mem_cons_of_mem _ hy)
          (fun he => (List.nodup_cons.mp hnd).1 (he ▸ hy))]
    · have hx : g x = none := hrest x (List.mem_cons_self x xs)
        (fun he => (List.nodup_cons.mp hnd).1 (he.symm ▸ hmem2))
      rw [hx]
      exact ih a hmem2 (List.nodup_cons.mp hnd).2 ha
        (fun y hy hne => hrest y (List.mem_cons_of_mem _ hy) hne)

theorem flatMap_range'_map {β : Type} :
    ∀ (len a : Nat) (H : Nat → List β) (G : Nat → β),
      (∀ k, k < len → H (a + k) = [G k]) →
      (List.range' a len).flatMap H = (List.range len).map G := by
  intro len
  induction len with
  | zero => intro a H G _; simp
  | succ m ih =>
    intro a H G hin
    rw [List.range'_succ, List.flatMap_cons]
    have h0 := hin 0 (by omega)
    rw [Nat.add_zero] at h0
    rw [h0]
    rw [ih (a + 1) H (fun k => G (k + 1)) (fun k hk => by
      rw [show a + 1 + k = a + (k + 1) from by omega]
      exact hin (k + 1) (by omega))]
    rw [List.range_succ_eq_map, List.map_cons, List.map_map]
    rfl

/-- flatMap over `range N` where only the window `[a, a+len)` contributes,
the entry at offset `k` being the singleton `[G k]`. -/
theorem flatMap_range_window {β : Type} (H : Nat → List β) (G : Nat → β) (N a len : Nat)
    (h1 : a + len ≤ N)
    (hin : ∀ k, k < len → H (a + k) = [G k])
    (hout : ∀ x, x < N → ¬(a ≤ x ∧ x < a + len) → H x = []) :
    (List.range N).flatMap H = (List.range len).map G := by
  rw [List.range_eq_range']
  have e1 : List.range' 0 a ++ List.range' a len = List.range' 0 (len + a) := by
    simpa using List.range'_append_1 0 a len
  have e2 : List.range' 0 (len + a) ++ List.range' (len + a) (N - a - len) =
      List.range' 0 ((N - a - len) + (len + a)) := by
    simpa using List.range'_append_1 0 (len + a) (N - a - len)
  have hsplit : List.range' 0 N =
      (List.range' 0 a ++ List.range' a len) ++ List.range' (len + a) (N - a - len) := by
    rw [e1, e2, show (N - a - len) + (len + a) = N from by omega]
  rw [hsplit, List.flatMap_append, List.flatMap_append]
  rw [List.flatMap_eq_nil_iff.mpr (fun x hx => by
    rw [mem_range1] at hx
    exact hout x (by omega) (by omega))]
  rw [show (List.range' (len + a) (N - a - len)).flatMap H = [] from
    List.flatMap_eq_nil_iff.mpr (fun x hx => by
      rw [mem_range1] at hx
      exact hout x (by omega) (by omega))]
  rw [List.nil_append, List.append_nil]
  exact flatMap_range'_map len a H G hin

/-! ### Line-level scenario lemmas -/

/-- A maximal run yields three equal non-empty cells at its start. -/
theorem maxRun_triple {f : Nat → Option Nat} {n s l c : Nat}
    (h : isMaxRun f n s l c = true) :
    f s ≠ none ∧ f (s + 1) = f s ∧ f (s + 2) = f s ∧ s + 3 ≤ n := by
  obtain ⟨h3, hb, hcells, -, -⟩ := isMaxRun_iff.mp h
  have e0 := hcells 0 (by omega)
  have e1 := hcells 1 (by omega)
  have e2 := hcells 2 (by omega)
  rw [Nat.add_zero] at e0
  exact ⟨by rw [e0]; simp, by rw [e1, e0], by rw [e2, e0], by omega⟩

theorem specRuns_nil_of_no_triple {f : Nat → Option Nat} {n : Nat}
    (h : ∀ s, s + 3 ≤ n → ¬(f s ≠ none ∧ f (s + 1) = f s ∧ f (s + 2) = f s)) :
    specRuns f n = [] := by
  unfold specRuns
  rw [List.filterMap_eq_nil_iff]
  intro s _
  rcases he : specEntry f n s with _ | p
  · rfl
  · exfalso
    obtain ⟨-, hmax⟩ := specEntry_some_elim he
    obtain ⟨t1, t2, t3, t4⟩ := maxRun_triple hmax
    exact h s t4 ⟨t1, t2, t3⟩

/-- A line whose only triples start inside the maximal run's suffix window
(a run of length L has triples at its first L − 2 cells) has that run as its
only spec entry. -/
theorem specRuns_single {f : Nat → Option Nat} {s L c : Nat}
    (hrun : isMaxRun f 5 s L c = true)
    (honly : ∀ s2, s2 + 3 ≤ 5 → (¬∃ k, k ≤ L - 3 ∧ s2 = s + k) →
      ¬(f s2 ≠ none ∧ f (s2 + 1) = f s2 ∧ f (s2 + 2) = f s2)) :
    specRuns f 5 = [(s, L, c)] := by
  obtain ⟨h3, hb, hcells0, -, -⟩ := isMaxRun_iff.mp hrun
  have hcells : ∀ i, s ≤ i → i < s + L → f i = some c := by
    intro i hi1 hi2
    have hv := hcells0 (i - s) (by omega)
    rwa [show s + (i - s) = i from by omega] at hv
  unfold specRuns
  refine filterMap_single (specEntry f 5) (s, L, c) (List.range 5) s ?_
    (List.nodup_range 5) (specEntry_of_max hrun) ?_
  · rw [List.mem_range]
    omega
  · intro x _ hxs
    by_cases hwin : ∃ k, k ≤ L - 3 ∧ x = s + k
    · obtain ⟨k, hk, rfl⟩ := hwin
      have hk1 : 1 ≤ k := by omega
      exact specEntry_none_mid hcells (by omega) (by omega)
    · rcases he : specEntry f 5 x with _ | p
      · rfl
      · exfalso
        obtain ⟨-, hmax⟩ := specEntry_some_elim he
        obtain ⟨t1, t2, t3, t4⟩ := maxRun_triple hmax
        exact honly x t4 hwin ⟨t1, t2, t3⟩

/-- On a 5×5 well a non-empty cell read pins both indices inside the grid. -/
theorem wget_lt {w : Well} (hd : wellDims w) {col row c : Nat}
    (h : wget w col row = some c) : col < 5 ∧ row < 5 := by
  constructor
  · by_contra hc
    rw [wget_oob (by rw [hd.1]; omega) row] at h
    exact Option.noConfusion h
  · by_contra hr
    unfold wget at h
    have hlen : (w.getD col []).length ≤ row := by
      by_cases hcl : col < w.length
      · rw [hd.2 _ (getD_mem hcl)]
        omega
      · rw [getD_oob (by omega) ([] : List (Option Nat))]
        simp
    rw [getD_oob hlen none] at h
    exact Option.noConfusion h

/-! ### The four passes on boards with a single run -/

theorem hMatches_nil {w : Well}
    (h : ∀ r, r < 5 → ∀ s2, s2 < 5 → ¬ tripleH w r s2) : hMatches w = [] := by
  unfold hMatches
  rw [List.flatMap_eq_nil_iff]
  intro r hr
  rw [List.mem_range] at hr
  rw [scanLine_eq_spec,
    specRuns_nil_of_no_triple (fun s2 hs2 ht => h r hr s2 (by omega) ht)]
  rfl

theorem vMatches_nil {w : Well}
    (h : ∀ col, col < 5 → ∀ r, r < 5 → ¬ tripleV w col r) : vMatches w = [] := by
  unfold vMatches
  rw [List.flatMap_eq_nil_iff]
  intro col hcol
  rw [List.mem_range] at hcol
  rw [scanLine_eq_spec,
    specRuns_nil_of_no_triple (fun r hrb ht => h col hcol r (by omega) ht)]
  rfl

theorem drAt_nil {w : Well} {cc rr : Nat} (h : ¬ tripleDR w cc rr) :
    drAt w cc rr = [] := by
  unfold drAt
  rcases hfc : wget w cc rr with _ | c
  · rfl
  · simp only [hfc]
    rw [if_neg]
    intro hlen3
    have hn3 : 3 ≤ min (5 - cc) (5 - rr) := by
      have hle := runExt_le (fun i => wget w (cc + i) (rr + i)) (min (5 - cc) (5 - rr)) c
        (min (5 - cc) (5 - rr)) (0 + 1)
      unfold runLen at hlen3
      omega
    obtain ⟨-, -, hcells, -⟩ :=
      @runLen_spec (fun i => wget w (cc + i) (rr + i)) (min (5 - cc) (5 - rr)) 0 c
        (by omega) hfc
    exact h ⟨by rw [hfc]; simp,
      by rw [hcells 1 (by omega) (by unfold runLen at hlen3 ⊢; omega), hfc],
      by rw [hcells 2 (by omega) (by unfold runLen at hlen3 ⊢; omega), hfc]⟩

theorem dlAt_nil {w : Well} {cc rr : Nat} (h : ¬ tripleDL w cc rr) :
    dlAt w cc rr = [] := by
  unfold dlAt
  rcases hfc : wget w cc rr with _ | c
  · rfl
  · simp only [hfc]
    rw [if_neg]
    intro hlen3
    have hn3 : 3 ≤ min (cc + 1) (5 - rr) := by
      have hle := runExt_le (fun i => wget w (cc - i) (rr + i)) (min (cc + 1) (5 - rr)) c
        (min (cc + 1) (5 - rr)) (0 + 1)
      unfold runLen at hlen3
      omega
    obtain ⟨-, -, hcells, -⟩ :=
      @runLen_spec (fun i => wget w (cc - i) (rr + i)) (min (cc + 1) (5 - rr)) 0 c
        (by omega) hfc
    exact h ⟨by rw [hfc]; simp,
      by rw [hcells 1 (by omega) (by unfold runLen at hlen3 ⊢; omega), hfc],
      by rw [hcells 2 (by omega) (by unfold runLen at hlen3 ⊢; omega), hfc]⟩

theorem drMatches_nil {w : Well}
    (h : ∀ cc, cc < 3 → ∀ rr, rr < 3 → ¬ tripleDR w cc rr) : drMatches w = [] := by
  unfold drMatches
  rw [List.flatMap_eq_nil_iff]
  intro cc hcc
  rw [List.mem_range] at hcc
  rw [List.flatMap_eq_nil_iff]
  intro rr hrr
  rw [List.mem_range] at hrr
  exact drAt_nil (h cc hcc rr hrr)

theorem dlMatches_nil {w : Well}
    (h : ∀ cc, 2 ≤ cc → cc < 5 → ∀ rr, rr < 3 → ¬ tripleDL w cc rr) :
    dlMatches w = [] := by
  unfold dlMatches
  rw [List.flatMap_eq_nil_iff]
  intro k hk
  rw [List.mem_range] at hk
  rw [List.flatMap_eq_nil_iff]
  intro rr hrr
  rw [List.mem_range] at hrr
  exact dlAt_nil (h (k + 2) (by omega) (by omega) rr hrr)

theorem hMatches_single {w : Well} {r0 s L c : Nat}
    (hrun : isMaxRun (fun col => wget w col r0) 5 s L c = true) (hr0 : r0 < 5)
    (honly : ∀ r, r < 5 → ∀ s2, s2 < 5 →
      (¬∃ k, k ≤ L - 3 ∧ r = r0 ∧ s2 = s + k) → ¬ tripleH w r s2) :
    hMatches w = [.cells "horizontal" (hCellsL s r0 L) c] := by
  unfold hMatches
  rw [show [MatchRec.cells "horizontal" (hCellsL s r0 L) c] =
      (List.range 1).map (fun _ => MatchRec.cells "horizontal" (hCellsL s r0 L) c) from rfl]
  refine flatMap_range_window _ _ 5 r0 1 (by omega) ?_ ?_
  · intro k hk
    have hk0 : k = 0 := by omega
    subst hk0
    rw [Nat.add_zero, scanLine_eq_spec,
      specRuns_single hrun (fun s2 hs2 hnw ht =>
        honly r0 hr0 s2 (by omega)
          (fun hex => hnw (by obtain ⟨k2, hk2, -, he⟩ := hex; exact ⟨k2, hk2, he⟩)) ht)]
    rfl
  · intro r hrb hnotr0
    rw [scanLine_eq_spec,
      specRuns_nil_of_no_triple (fun s2 hs2 ht =>
        honly r hrb s2 (by omega)
          (fun hex => by
            obtain ⟨k2, -, rfl, -⟩ := hex
            exact hnotr0 ⟨Nat.le_refl _, by omega⟩) ht)]
    rfl

theorem vMatches_single {w : Well} {c0 s L c : Nat}
    (hrun : isMaxRun (fun row => wget w c0 row) 5 s L c = true) (hc0 : c0 < 5)
    (honly : ∀ col, col < 5 → ∀ r, r < 5 →
      (¬∃ k, k ≤ L - 3 ∧ col = c0 ∧ r = s + k) → ¬ tripleV w col r) :
    vMatches w = [.cells "vertical" (vCellsL c0 s L) c] := by
  unfold vMatches
  rw [show [MatchRec.cells "vertical" (vCellsL c0 s L) c] =
      (List.range 1).map (fun _ => MatchRec.cells "vertical" (vCellsL c0 s L) c) from rfl]
  refine flatMap_range_window _ _ 5 c0 1 (by omega) ?_ ?_
  · intro k hk
    have hk0 : k = 0 := by omega
    subst hk0
    rw [Nat.add_zero, scanLine_eq_spec,
      specRuns_single hrun (fun r hrb hnw ht =>
        honly c0 hc0 r (by omega)
          (fun hex => hnw (by obtain ⟨k2, hk2, -, he⟩ := hex; exact ⟨k2, hk2, he⟩)) ht)]
    rfl
  · intro col hcb hnotc0
    rw [scanLine_eq_spec,
      specRuns_nil_of_no_triple (fun r hrb ht =>
        honly col hcb r (by omega)
          (fun hex => by
            obtain ⟨k2, -, rfl, -⟩ := hex
            exact hnotc0 ⟨Nat.le_refl _, by omega⟩) ht)]
    rfl

/-! ### Per-start behaviour of the diagonal passes on a maximal run -/

theorem drAt_runLen {w : Well} {c0 r0 L c : Nat} (hM : isMaxDR w c0 r0 L c)
    {j : Nat} (hj : j < L) :
    runLen (fun i => wget w (c0 + j + i) (r0 + j + i))
      (min (5 - (c0 + j)) (5 - (r0 + j))) 0 c = L - j := by
  obtain ⟨h3, hcb, hrb, hcells, -, hright⟩ := hM
  refine @runLen_det _ _ 0 (L - j) c (by omega) ?_ ?_ ?_
  · exact Nat.le_min.mpr ⟨by omega, by omega⟩
  · intro i h0 hi
    have hv := hcells (j + i) (by omega)
    rwa [show c0 + (j + i) = c0 + j + i from (Nat.add_assoc c0 j i).symm,
         show r0 + (j + i) = r0 + j + i from (Nat.add_assoc r0 j i).symm] at hv
  · rcases hright with h5 | h5 | hne
    · exact Or.inl (by omega)
    · exact Or.inl (by omega)
    · refine Or.inr ?_
      show wget w (c0 + j + (L - j)) (r0 + j + (L - j)) ≠ some c
      rw [show c0 + j + (L - j) = c0 + L from by omega,
          show r0 + j + (L - j) = r0 + L from by omega]
      exact hne

/-- At every cell of a maximal down-right run with at least 3 cells left,
the code reports one match spanning the whole remaining suffix. -/
theorem drAt_on_run {w : Well} {c0 r0 L c : Nat} (hM : isMaxDR w c0 r0 L c)
    {k : Nat} (hk : k ≤ L - 3) :
    drAt w (c0 + k) (r0 + k) =
      [MatchRec.cells "diagonal-dr"
        ((List.range (L - k)).map fun i => (c0 + k + i, r0 + k + i)) c] := by
  have h3 := hM.1
  have hfc : wget w (c0 + k) (r0 + k) = some c := hM.2.2.2.1 k (by omega)
  unfold drAt
  simp only [hfc]
  rw [drAt_runLen hM (show k < L from by omega), if_pos (by omega)]

/-- Any match the down-right pass reports from a start that is not a
suffix-start of the maximal run has a tile outside the run. -/
theorem drAt_off_run {w : Well} {c0 r0 L c : Nat} (hM : isMaxDR w c0 r0 L c)
    {cc rr : Nat} (hoff : ∀ k, k ≤ L - 3 → ¬(cc = c0 + k ∧ rr = r0 + k)) :
    ∀ m ∈ drAt w cc rr, ∃ t ∈ matchTiles m, t ∉ drCells c0 r0 L := by
  intro m hm
  unfold drAt at hm
  rcases hfc : wget w cc rr with _ | c2
  · rw [hfc] at hm
    cases hm
  · simp only [hfc] at hm
    have hnotOn : ∀ j, j < L → ¬(cc = c0 + j ∧ rr = r0 + j) := by
    -- a start strictly inside the last two cells has fewer than 3 cells left
      intro j hj hcrj
      by_cases hj3 : j ≤ L - 3
      · exact hoff j hj3 hcrj
      · obtain ⟨rfl, rfl⟩ := hcrj
        have hc2 : c2 = c := by
          have hv := hM.2.2.2.1 j hj
          rw [hfc] at hv
          injection hv with hv
        subst hc2
        rw [drAt_runLen hM hj] at hm
        rw [if_neg (by omega)] at hm
        cases hm
    by_cases hlen3 : 3 ≤ runLen (fun i => wget w (cc + i) (rr + i))
        (min (5 - cc) (5 - rr)) 0 c2
    · rw [if_pos hlen3] at hm
      rw [List.mem_singleton] at hm
      subst hm
      refine ⟨(cc, rr), ?_, ?_⟩
      · show (cc, rr) ∈ (List.range _).map fun i => (cc + i, rr + i)
        rw [List.mem_map]
        exact ⟨0, by rw [List.mem_range]; omega, by simp⟩
      · intro hmem
        unfold drCells at hmem
        rw [List.mem_map] at hmem
        obtain ⟨i, hi, he⟩ := hmem
        rw [List.mem_range] at hi
        rw [Prod.mk.injEq] at he
        exact hnotOn i hi ⟨he.1.symm, he.2.symm⟩
    · rw [if_neg hlen3] at hm
      cases hm

theorem dlAt_runLen {w : Well} {c0 r0 L c : Nat} (hM : isMaxDL w c0 r0 L c)
    {j : Nat} (hj : j < L) :
    runLen (fun i => wget w (c0 - j - i) (r0 + j + i))
      (min (c0 - j + 1) (5 - (r0 + j))) 0 c = L - j := by
  obtain ⟨h3, hcb, hc5, hrb, hcells, -, hright⟩ := hM
  refine @runLen_det _ _ 0 (L - j) c (by omega) ?_ ?_ ?_
  · exact Nat.le_min.mpr ⟨by omega, by omega⟩
  · intro i h0 hi
    have hv := hcells (j + i) (by omega)
    rwa [show c0 - (j + i) = c0 - j - i from by omega,
         show r0 + (j + i) = r0 + j + i from (Nat.add_assoc r0 j i).symm] at hv
  · rcases hright with h5 | h5 | hne
    · exact Or.inl (by omega)
    · exact Or.inl (by omega)
    · refine Or.inr ?_
      show wget w (c0 - j - (L - j)) (r0 + j + (L - j)) ≠ some c
      rw [show c0 - j - (L - j) = c0 - L from by omega,
          show r0 + j + (L - j) = r0 + L from by omega]
      exact hne

/-- At every cell of a maximal down-left run with at least 3 cells left,
the code reports one match spanning the whole remaining suffix. -/
theorem dlAt_on_run {w : Well} {c0 r0 L c : Nat} (hM : isMaxDL w c0 r0 L c)
    {k : Nat} (hk : k ≤ L - 3) :
    dlAt w (c0 - k) (r0 + k) =
      [MatchRec.cells "diagonal-dl"
        ((List.range (L - k)).map fun i => (c0 - k - i, r0 + k + i)) c] := by
  have h3 := hM.1
  have hfc : wget w (c0 - k) (r0 + k) = some c := hM.2.2.2.2.1 k (by omega)
  unfold dlAt
  simp only [hfc]
  rw [dlAt_runLen hM (show k < L from by omega), if_pos (by omega)]

/-- Any match the down-left pass reports from a start that is not a
suffix-start of the maximal run has a tile outside the run. -/
theorem dlAt_off_run {w : Well} {c0 r0 L c : Nat} (hM : isMaxDL w c0 r0 L c)
    {cc rr : Nat} (hcc : cc ≤ 4)
    (hoff : ∀ k, k ≤ L - 3 → ¬(cc = c0 - k ∧ rr = r0 + k)) :
    ∀ m ∈ dlAt w cc rr, ∃ t ∈ matchTiles m, t ∉ dlCells c0 r0 L := by
  intro m hm
  unfold dlAt at hm
  rcases hfc : wget w cc rr with _ | c2
  · rw [hfc] at hm
    cases hm
  · simp only [hfc] at hm
    have hnotOn : ∀ j, j < L → ¬(cc = c0 - j ∧ rr = r0 + j) := by
      intro j hj hcrj
      by_cases hj3 : j ≤ L - 3
      · exact hoff j hj3 hcrj
      · obtain ⟨rfl, rfl⟩ := hcrj
        have hc2 : c2 = c := by
          have hv := hM.2.2.2.2.1 j hj
          rw [hfc] at hv
          injection hv with hv
        subst hc2
        rw [dlAt_runLen hM hj] at hm
        rw [if_neg (by omega)] at hm
        cases hm
    by_cases hlen3 : 3 ≤ runLen (fun i => wget w (cc - i) (rr + i))
        (min (cc + 1) (5 - rr)) 0 c2
    · rw [if_pos hlen3] at hm
      rw [List.mem_singleton] at hm
      subst hm
      refine ⟨(cc, rr), ?_, ?_⟩
      · show (cc, rr) ∈ (List.range _).map fun i => (cc - i, rr + i)
        rw [List.mem_map]
        exact ⟨0, by rw [List.mem_range]; omega, by simp⟩
      · intro hmem
        unfold dlCells at hmem
        rw [List.mem_map] at hmem
        obtain ⟨i, hi, he⟩ := hmem
        rw [List.mem_range] at hi
        rw [Prod.mk.injEq] at he
        exact hnotOn i hi ⟨he.1.symm, he.2.symm⟩
    · rw [if_neg hlen3] at hm
      cases hm

theorem eq_singleton_map {β : Type} (H : Nat → List β) (b : β) (N a : Nat) (haN : a + 1 ≤ N)
    (hA : H a = [b]) (hout : ∀ x, x < N → x ≠ a → H x = []) :
    (List.range N).flatMap H = [b] := by
  have hw := flatMap_range_window H (fun _ => b) N a 1 haN
    (fun k hk => by
      have hk0 : k = 0 := by omega
      subst hk0
      rw [Nat.add_zero]
      exact hA)
    (fun x hx hnx => hout x hx (by omega))
  simpa using hw

/-- On a board whose only down-right triples sit inside one maximal
down-right run, the pass reports exactly the `L - 2` suffixes of length ≥ 3,
longest first. -/
theorem drMatches_only {w : Well} {c0 r0 L c : Nat} (hM : isMaxDR w c0 r0 L c)
    (honly : ∀ cc, cc < 3 → ∀ rr, rr < 3 →
      (¬∃ k, k ≤ L - 3 ∧ cc = c0 + k ∧ rr = r0 + k) → ¬ tripleDR w cc rr) :
    drMatches w = (List.range (L - 2)).map fun k =>
      MatchRec.cells "diagonal-dr"
        ((List.range (L - k)).map fun i => (c0 + k + i, r0 + k + i)) c := by
  have h3 := hM.1
  have hcb := hM.2.1
  have hrb := hM.2.2.1
  unfold drMatches
  refine flatMap_range_window _ _ 3 c0 (L - 2) (by omega) ?_ ?_
  · intro k hk
    refine eq_singleton_map _ _ 3 (r0 + k) (by omega) (drAt_on_run hM (by omega)) ?_
    intro rr hrr hne
    refine drAt_nil (honly (c0 + k) (by omega) rr (by omega) ?_)
    rintro ⟨k2, hk2, he1, he2⟩
    have hkk : k2 = k := by omega
    subst hkk
    exact hne (by omega)
  · intro cc hcc hnotwin
    rw [List.flatMap_eq_nil_iff]
    intro rr hrr
    rw [List.mem_range] at hrr
    refine drAt_nil (honly cc (by omega) rr hrr ?_)
    rintro ⟨k2, hk2, rfl, rfl⟩
    exact hnotwin ⟨by omega, by omega⟩

/-- On a board whose only down-left triples sit inside one maximal down-left
run, the pass reports exactly the `L - 2` suffixes of length ≥ 3, shortest
first (the outer loop walks columns left to right). -/
theorem dlMatches_only {w : Well} {c0 r0 L c : Nat} (hM : isMaxDL w c0 r0 L c)
    (honly : ∀ cc, 2 ≤ cc → cc < 5 → ∀ rr, rr < 3 →
      (¬∃ k, k ≤ L - 3 ∧ cc = c0 - k ∧ rr = r0 + k) → ¬ tripleDL w cc rr) :
    dlMatches w = (List.range (L - 2)).map fun k =>
      MatchRec.cells "diagonal-dl"
        ((List.range (k + 3)).map fun i =>
          (c0 - (L - 3 - k) - i, r0 + (L - 3 - k) + i)) c := by
  have h3 := hM.1
  have hcb := hM.2.1
  have hc5 := hM.2.2.1
  have hrb := hM.2.2.2.1
  unfold dlMatches
  refine flatMap_range_window _ _ 3 (c0 + 1 - L) (L - 2) (by omega) ?_ ?_
  · intro k hk
    refine eq_singleton_map _ _ 3 (r0 + (L - 3 - k)) (by omega) ?_ ?_
    · rw [show c0 + 1 - L + k + 2 = c0 - (L - 3 - k) from by omega,
          show k + 3 = L - (L - 3 - k) from by omega]
      exact dlAt_on_run hM (by omega)
    · intro rr hrr hne
      refine dlAt_nil (honly (c0 + 1 - L + k + 2) (by omega) (by omega) rr (by omega) ?_)
      rintro ⟨k2, hk2, he1, he2⟩
      have hkk : k2 = L - 3 - k := by omega
      subst hkk
      exact hne (by omega)
  · intro ko hko hnotwin
    rw [List.flatMap_eq_nil_iff]
    intro rr hrr
    rw [List.mem_range] at hrr
    refine dlAt_nil (honly (ko + 2) (by omega) (by omega) rr hrr ?_)
    rintro ⟨k2, hk2, he1, rfl⟩
    exact hnotwin ⟨by omega, by omega⟩

/-! ### checkMatches on boards whose only run is one isolated run -/

/-- Isolated horizontal run: 100/300/600 points for 3/4/5 and exactly the
run's cells are emptied before gravity. -/
theorem checkMatches_isoH {g : Game} {r0 s L c : Nat} (hd : wellDims g.well)
    (hrun : isMaxRun (fun col => wget g.well col r0) 5 s L c = true)
    (honlyH : ∀ r, r < 5 → ∀ s2, s2 < 5 →
      (¬∃ k, k ≤ L - 3 ∧ r = r0 ∧ s2 = s + k) → ¬ tripleH g.well r s2)
    (hnoV : ∀ col, col < 5 → ∀ r, r < 5 → ¬ tripleV g.well col r)
    (hnoDR : ∀ cc, cc < 3 → ∀ rr, rr < 3 → ¬ tripleDR g.well cc rr)
    (hnoDL : ∀ cc, 2 ≤ cc → cc < 5 → ∀ rr, rr < 3 → ¬ tripleDL g.well cc rr) :
    (g.checkMatches).score = g.score + sizePoints L ∧
    (g.checkMatches).well = applyGravityW (removeMatches g.well (findMatches g.well)) ∧
    ∀ col row, wget (removeMatches g.well (findMatches g.well)) col row =
      if (col, row) ∈ hCellsL s r0 L then none else wget g.well col row := by
  have hr05 : r0 < 5 := by
    have h0 := (isMaxRun_iff.mp hrun).2.2.1 0 (by have := (isMaxRun_iff.mp hrun).1; omega)
    exact (wget_lt hd h0).2
  have hfm : findMatches g.well = [MatchRec.cells "horizontal" (hCellsL s r0 L) c] := by
    unfold findMatches
    rw [hMatches_single hrun hr05 honlyH, vMatches_nil hnoV,
        drMatches_nil hnoDR, dlMatches_nil hnoDL]
    rfl
  rw [checkMatches_eq, hfm]
  rw [if_neg (by simp)]
  refine ⟨?_, ?_, ?_⟩
  · rw [checkLevelUp_score]
    show g.score + _ = _
    congr 1
    simp [matchTiles, hCellsL]
  · rw [checkLevelUp_well]
  · intro col row
    rw [wget_removeMatches,
      if_congr (show (∃ m ∈ [MatchRec.cells "horizontal" (hCellsL s r0 L) c],
          (col, row) ∈ matchTiles m) ↔ (col, row) ∈ hCellsL s r0 L from by
        simp [matchTiles]) rfl rfl]

/-- Isolated vertical run: 100/300/600 points for 3/4/5 and exactly the
run's cells are emptied before gravity. -/
theorem checkMatches_isoV {g : Game} {c0 s L c : Nat} (hd : wellDims g.well)
    (hrun : isMaxRun (fun row => wget g.well c0 row) 5 s L c = true)
    (honlyV : ∀ col, col < 5 → ∀ r, r < 5 →
      (¬∃ k, k ≤ L - 3 ∧ col = c0 ∧ r = s + k) → ¬ tripleV g.well col r)
    (hnoH : ∀ r, r < 5 → ∀ s2, s2 < 5 → ¬ tripleH g.well r s2)
    (hnoDR : ∀ cc, cc < 3 → ∀ rr, rr < 3 → ¬ tripleDR g.well cc rr)
    (hnoDL : ∀ cc, 2 ≤ cc → cc < 5 → ∀ rr, rr < 3 → ¬ tripleDL g.well cc rr) :
    (g.checkMatches).score = g.score + sizePoints L ∧
    (g.checkMatches).well = applyGravityW (removeMatches g.well (findMatches g.well)) ∧
    ∀ col row, wget (removeMatches g.well (findMatches g.well)) col row =
      if (col, row) ∈ vCellsL c0 s L then none else wget g.well col row := by
  have hc05 : c0 < 5 := by
    have h0 := (isMaxRun_iff.mp hrun).2.2.1 0 (by have := (isMaxRun_iff.mp hrun).1; omega)
    exact (wget_lt hd h0).1
  have hfm : findMatches g.well = [MatchRec.cells "vertical" (vCellsL c0 s L) c] := by
    unfold findMatches
    rw [vMatches_single hrun hc05 honlyV, hMatches_nil hnoH,
        drMatches_nil hnoDR, dlMatches_nil hnoDL]
    rfl
  rw [checkMatches_eq, hfm]
  rw [if_neg (by simp)]
  refine ⟨?_, ?_, ?_⟩
  · rw [checkLevelUp_score]
    show g.score + _ = _
    congr 1
    simp [matchTiles, vCellsL]
  · rw [checkLevelUp_well]
  · intro col row
    rw [wget_removeMatches,
      if_congr (show (∃ m ∈ [MatchRec.cells "vertical" (vCellsL c0 s L) c],
          (col, row) ∈ matchTiles m) ↔ (col, row) ∈ vCellsL c0 s L from by
        simp [matchTiles]) rfl rfl]

/-- Isolated down-right diagonal run: `diagPoints L` points (100/400/1000 for
3/4/5) and exactly the run's cells are emptied before gravity. -/
theorem checkMatches_isoDR {g : Game} {c0 r0 L c : Nat}
    (hM : isMaxDR g.well c0 r0 L c)
    (hnoH : ∀ r, r < 5 → ∀ s2, s2 < 5 → ¬ tripleH g.well r s2)
    (hnoV : ∀ col, col < 5 → ∀ r, r < 5 → ¬ tripleV g.well col r)
    (honlyDR : ∀ cc, cc < 3 → ∀ rr, rr < 3 →
      (¬∃ k, k ≤ L - 3 ∧ cc = c0 + k ∧ rr = r0 + k) → ¬ tripleDR g.well cc rr)
    (hnoDL : ∀ cc, 2 ≤ cc → cc < 5 → ∀ rr, rr < 3 → ¬ tripleDL g.well cc rr) :
    (g.checkMatches).score = g.score + diagPoints L ∧
    (g.checkMatches).well = applyGravityW (removeMatches g.well (findMatches g.well)) ∧
    ∀ col row, wget (removeMatches g.well (findMatches g.well)) col row =
      if (col, row) ∈ drCells c0 r0 L then none else wget g.well col row := by
  have h3 := hM.1
  have hfm : findMatches g.well = (List.range (L - 2)).map fun k =>
      MatchRec.cells "diagonal-dr"
        ((List.range (L - k)).map fun i => (c0 + k + i, r0 + k + i)) c := by
    unfold findMatches
    rw [hMatches_nil hnoH, vMatches_nil hnoV,
        drMatches_only hM honlyDR, dlMatches_nil hnoDL]
    simp
  rw [checkMatches_eq, hfm]
  rw [if_neg (by simp; omega)]
  refine ⟨?_, ?_, ?_⟩
  · rw [checkLevelUp_score]
    show g.score + _ = _
    congr 1
    rw [List.map_map]
    unfold diagPoints
    refine congrArg List.sum (List.map_congr_left ?_)
    intro k hk
    simp [matchTiles]
  · rw [checkLevelUp_well]
  · intro col row
    rw [wget_removeMatches,
      if_congr (show (∃ m ∈ (List.range (L - 2)).map fun k =>
          MatchRec.cells "diagonal-dr"
            ((List.range (L - k)).map fun i => (c0 + k + i, r0 + k + i)) c,
          (col, row) ∈ matchTiles m) ↔ (col, row) ∈ drCells c0 r0 L from ?_) rfl rfl]
    constructor
    · rintro ⟨m, hm, ht⟩
      rw [List.mem_map] at hm
      obtain ⟨k, hk, rfl⟩ := hm
      rw [List.mem_range] at hk
      simp only [matchTiles, List.mem_map, List.mem_range] at ht
      obtain ⟨i, hi, he⟩ := ht
      rw [Prod.mk.injEq] at he
      obtain ⟨he1, he2⟩ := he
      subst he1
      subst he2
      unfold drCells
      rw [List.mem_map]
      exact ⟨k + i, by rw [List.mem_range]; omega,
        by rw [Prod.mk.injEq]; exact ⟨by omega, by omega⟩⟩
    · intro ht
      unfold drCells at ht
      rw [List.mem_map] at ht
      obtain ⟨i, hi, he⟩ := ht
      rw [Prod.mk.injEq] at he
      obtain ⟨he1, he2⟩ := he
      subst he1
      subst he2
      rw [List.mem_range] at hi
      refine ⟨MatchRec.cells "diagonal-dr"
        ((List.range (L - 0)).map fun i => (c0 + 0 + i, r0 + 0 + i)) c, ?_, ?_⟩
      · rw [List.mem_map]
        exact ⟨0, by rw [List.mem_range]; omega, rfl⟩
      · simp only [matchTiles, List.mem_map, List.mem_range]
        exact ⟨i, by omega, by rw [Prod.mk.injEq]; exact ⟨by omega, by omega⟩⟩

/-- Isolated down-left diagonal run: `diagPoints L` points (100/400/1000 for
3/4/5) and exactly the run's cells are emptied before gravity. -/
theorem checkMatches_isoDL {g : Game} {c0 r0 L c : Nat}
    (hM : isMaxDL g.well c0 r0 L c)
    (hnoH : ∀ r, r < 5 → ∀ s2, s2 < 5 → ¬ tripleH g.well r s2)
    (hnoV : ∀ col, col < 5 → ∀ r, r < 5 → ¬ tripleV g.well col r)
    (hnoDR : ∀ cc, cc < 3 → ∀ rr, rr < 3 → ¬ tripleDR g.well cc rr)
    (honlyDL : ∀ cc, 2 ≤ cc → cc < 5 → ∀ rr, rr < 3 →
      (¬∃ k, k ≤ L - 3 ∧ cc = c0 - k ∧ rr = r0 + k) → ¬ tripleDL g.well cc rr) :
    (g.checkMatches).score = g.score + diagPoints L ∧
    (g.checkMatches).well = applyGravityW (removeMatches g.well (findMatches g.well)) ∧
    ∀ col row, wget (removeMatches g.well (findMatches g.well)) col row =
      if (col, row) ∈ dlCells c0 r0 L then none else wget g.well col row := by
  have h3 := hM.1
  have hL5 : L ≤ 5 := by have := hM.2.2.2.1; omega
  have hfm : findMatches g.well = (List.range (L - 2)).map fun k =>
      MatchRec.cells "diagonal-dl"
        ((List.range (k + 3)).map fun i =>
          (c0 - (L - 3 - k) - i, r0 + (L - 3 - k) + i)) c := by
    unfold findMatches
    rw [hMatches_nil hnoH, vMatches_nil hnoV,
        drMatches_nil hnoDR, dlMatches_only hM honlyDL]
    simp
  rw [checkMatches_eq, hfm]
  rw [if_neg (by simp; omega)]
  refine ⟨?_, ?_, ?_⟩
  · rw [checkLevelUp_score]
    show g.score + _ = _
    congr 1
    have hsum : ((List.range (L - 2)).map fun k => sizePoints (k + 3)).sum = diagPoints L := by
      have hL : L = 3 ∨ L = 4 ∨ L = 5 := by omega
      rcases hL with rfl | rfl | rfl <;> decide
    rw [← hsum, List.map_map]
    refine congrArg List.sum (List.map_congr_left ?_)
    intro k hk
    simp [matchTiles]
  · rw [checkLevelUp_well]
  · intro col row
    rw [wget_removeMatches,
      if_congr (show (∃ m ∈ (List.range (L - 2)).map fun k =>
          MatchRec.cells "diagonal-dl"
            ((List.range (k + 3)).map fun i =>
              (c0 - (L - 3 - k) - i, r0 + (L - 3 - k) + i)) c,
          (col, row) ∈ matchTiles m) ↔ (col, row) ∈ dlCells c0 r0 L from ?_) rfl rfl]
    constructor
    · rintro ⟨m, hm, ht⟩
      rw [List.mem_map] at hm
      obtain ⟨k, hk, rfl⟩ := hm
      rw [List.mem_range] at hk
      simp only [matchTiles, List.mem_map, List.mem_range] at ht
      obtain ⟨i, hi, he⟩ := ht
      rw [Prod.mk.injEq] at he
      obtain ⟨he1, he2⟩ := he
      subst he1
      subst he2
      unfold dlCells
      rw [List.mem_map]
      exact ⟨L - 3 - k + i, by rw [List.mem_range]; omega,
        by rw [Prod.mk.injEq]; exact ⟨by omega, by omega⟩⟩
    · intro ht
      unfold dlCells at ht
      rw [List.mem_map] at ht
      obtain ⟨i, hi, he⟩ := ht
      rw [Prod.mk.injEq] at he
      obtain ⟨he1, he2⟩ := he
      subst he1
      subst he2
      rw [List.mem_range] at hi
      refine ⟨MatchRec.cells "diagonal-dl"
        ((List.range (L - 3 + 3)).map fun i =>
          (c0 - (L - 3 - (L - 3)) - i, r0 + (L - 3 - (L - 3)) + i)) c, ?_, ?_⟩
      · rw [List.mem_map]
        exact ⟨L - 3, by rw [List.mem_range]; omega, rfl⟩
      · simp only [matchTiles, List.mem_map, List.mem_range]
        exact ⟨i, by omega, by rw [Prod.mk.injEq]; exact ⟨by omega, by omega⟩⟩

/-- A 5×5 well whose only run is one isolated horizontal triple of color 1
on row 2, columns 1..3 (wells are stored column-major). -/
def wC1H : Well :=
  [[none, none, none, none, none],
   [none, none, some 1, none, none],
   [none, none, some 1, none, none],
   [none, none, some 1, none, none],
   [none, none, none, none, none]]

def gC1H : Game := { Game.init 1 with well := wC1H }

/-- A 5×5 well whose only run is one isolated horizontal run of 4, color 1,
on row 2, columns 0..3 (column-major). -/
def wC1H4 : Well :=
  [[none, none, some 1, none, none],
   [none, none, some 1, none, none],
   [none, none, some 1, none, none],
   [none, none, some 1, none, none],
   [none, none, none, none, none]]

def gC1H4 : Game := { Game.init 1 with well := wC1H4 }

/-- A 5×5 well whose only run is one isolated vertical run of 5, color 2,
filling column 1 (column-major). -/
def wC1V5 : Well :=
  [[none, none, none, none, none],
   [some 2, some 2, some 2, some 2, some 2],
   [none, none, none, none, none],
   [none, none, none, none, none],
   [none, none, none, none, none]]

def gC1V5 : Game := { Game.init 1 with well := wC1V5 }

/-- A 5×5 well whose only run is one isolated down-right diagonal of length
4, color 1, from the top-left corner (column-major storage). -/
def wDiag4 : Well :=
  [[some 1, none, none, none, none],
   [none, some 1, none, none, none],
   [none, none, some 1, none, none],
   [none, none, none, some 1, none],
   [none, none, none, none, none]]

def gDiag4 : Game := { Game.init 1 with well := wDiag4 }

/-- C1 (amended): the per-tick well-match scan reports each maximal
horizontal or vertical run exactly once, spanning its full length (the scan
equals the list of maximal runs of every line); the diagonal passes do not
skip: a maximal diagonal run of length L is reported once per suffix of
length ≥ 3 — at the suffix's start cell, spanning that suffix — so L − 2
times in total, and any diagonal match not starting on such a suffix has a
tile outside the run.  Consequently, on a board whose only run is one
isolated run, a checkMatches call adds exactly 100/300/600 points for a
horizontal or vertical run of 3/4/5 but 100/400/1000 for a diagonal run of
3/4/5, and in every case empties exactly the run's cells before applying
gravity. -/
theorem claim_C1_match_scan :
    (∀ f n, scanLine f n = specRuns f n) ∧
    (∀ w c0 r0 L c, isMaxDR w c0 r0 L c →
      (∀ k, k ≤ L - 3 → drAt w (c0 + k) (r0 + k) =
        [MatchRec.cells "diagonal-dr"
          ((List.range (L - k)).map fun i => (c0 + k + i, r0 + k + i)) c]) ∧
      (∀ cc rr, (∀ k, k ≤ L - 3 → ¬(cc = c0 + k ∧ rr = r0 + k)) →
        ∀ m ∈ drAt w cc rr, ∃ t ∈ matchTiles m, t ∉ drCells c0 r0 L)) ∧
    (∀ w c0 r0 L c, isMaxDL w c0 r0 L c →
      (∀ k, k ≤ L - 3 → dlAt w (c0 - k) (r0 + k) =
        [MatchRec.cells "diagonal-dl"
          ((List.range (L - k)).map fun i => (c0 - k - i, r0 + k + i)) c]) ∧
      (∀ cc rr, cc ≤ 4 → (∀ k, k ≤ L - 3 → ¬(cc = c0 - k ∧ rr = r0 + k)) →
        ∀ m ∈ dlAt w cc rr, ∃ t ∈ matchTiles m, t ∉ dlCells c0 r0 L)) ∧
    (diagPoints 3 = 100 ∧ diagPoints 4 = 400 ∧ diagPoints 5 = 1000) ∧
    (∀ (g : Game) (r0 s L c : Nat), wellDims g.well →
      isMaxRun (fun col => wget g.well col r0) 5 s L c = true →
      (∀ r, r < 5 → ∀ s2, s2 < 5 →
        (¬∃ k, k ≤ L - 3 ∧ r = r0 ∧ s2 = s + k) → ¬ tripleH g.well r s2) →
      (∀ col, col < 5 → ∀ r, r < 5 → ¬ tripleV g.well col r) →
      (∀ cc, cc < 3 → ∀ rr, rr < 3 → ¬ tripleDR g.well cc rr) →
      (∀ cc, 2 ≤ cc → cc < 5 → ∀ rr, rr < 3 → ¬ tripleDL g.well cc rr) →
      (g.checkMatches).score = g.score + sizePoints L ∧
      (g.checkMatches).well = applyGravityW (removeMatches g.well (findMatches g.well)) ∧
      ∀ col row, wget (removeMatches g.well (findMatches g.well)) col row =
        if (col, row) ∈ hCellsL s r0 L then none else wget g.well col row) ∧
    (∀ (g : Game) (c0 s L c : Nat), wellDims g.well →
      isMaxRun (fun row => wget g.well c0 row) 5 s L c = true →
      (∀ col, col < 5 → ∀ r, r < 5 →
        (¬∃ k, k ≤ L - 3 ∧ col = c0 ∧ r = s + k) → ¬ tripleV g.well col r) →
      (∀ r, r < 5 → ∀ s2, s2 < 5 → ¬ tripleH g.well r s2) →
      (∀ cc, cc < 3 → ∀ rr, rr < 3 → ¬ tripleDR g.well cc rr) →
      (∀ cc, 2 ≤ cc → cc < 5 → ∀ rr, rr < 3 → ¬ tripleDL g.well cc rr) →
      (g.checkMatches).score = g.score + sizePoints L ∧
      (g.checkMatches).well = applyGravityW (removeMatches g.well (findMatches g.well)) ∧
      ∀ col row, wget (removeMatches g.well (findMatches g.well)) col row =
        if (col, row) ∈ vCellsL c0 s L then none else wget g.well col row) ∧
    (∀ (g : Game) (c0 r0 L c : Nat), isMaxDR g.well c0 r0 L c →
      (∀ r, r < 5 → ∀ s2, s2 < 5 → ¬ tripleH g.well r s2) →
      (∀ col, col < 5 → ∀ r, r < 5 → ¬ tripleV g.well col r) →
      (∀ cc, cc < 3 → ∀ rr, rr < 3 →
        (¬∃ k, k ≤ L - 3 ∧ cc = c0 + k ∧ rr = r0 + k) → ¬ tripleDR g.well cc rr) →
      (∀ cc, 2 ≤ cc → cc < 5 → ∀ rr, rr < 3 → ¬ tripleDL g.well cc rr) →
      (g.checkMatches).score = g.score + diagPoints L ∧
      (g.checkMatches).well = applyGravityW (removeMatches g.well (findMatches g.well)) ∧
      ∀ col row, wget (removeMatches g.well (findMatches g.well)) col row =
        if (col, row) ∈ drCells c0 r0 L then none else wget g.well col row) ∧
    (∀ (g : Game) (c0 r0 L c : Nat), isMaxDL g.well c0 r0 L c →
      (∀ r, r < 5 → ∀ s2, s2 < 5 → ¬ tripleH g.well r s2) →
      (∀ col, col < 5 → ∀ r, r < 5 → ¬ tripleV g.well col r) →
      (∀ cc, cc < 3 → ∀ rr, rr < 3 → ¬ tripleDR g.well cc rr) →
      (∀ cc, 2 ≤ cc → cc < 5 → ∀ rr, rr < 3 →
        (¬∃ k, k ≤ L - 3 ∧ cc = c0 - k ∧ rr = r0 + k) → ¬ tripleDL g.well cc rr) →
      (g.checkMatches).score = g.score + diagPoints L ∧
      (g.checkMatches).well = applyGravityW (removeMatches g.well (findMatches g.well)) ∧
      ∀ col row, wget (removeMatches g.well (findMatches g.well)) col row =
        if (col, row) ∈ dlCells c0 r0 L then none else wget g.well col row) := by
  refine ⟨scanLine_eq_spec, ?_, ?_, by decide, ?_, ?_, ?_, ?_⟩
  · intro w c0 r0 L c hM
    exact ⟨fun k hk => drAt_on_run hM hk, fun cc rr hoff => drAt_off_run hM hoff⟩
  · intro w c0 r0 L c hM
    exact ⟨fun k hk => dlAt_on_run hM hk, fun cc rr hcc hoff => dlAt_off_run hM hcc hoff⟩
  · intro g r0 s L c hd hrun honlyH hnoV hnoDR hnoDL
    exact checkMatches_isoH hd hrun honlyH hnoV hnoDR hnoDL
  · intro g c0 s L c hd hrun honlyV hnoH hnoDR hnoDL
    exact checkMatches_isoV hd hrun honlyV hnoH hnoDR hnoDL
  · intro g c0 r0 L c hM hnoH hnoV honlyDR hnoDL
    exact checkMatches_isoDR hM hnoH hnoV honlyDR hnoDL
  · intro g c0 r0 L c hM hnoH hnoV hnoDR honlyDL
    exact checkMatches_isoDL hM hnoH hnoV hnoDR honlyDL

/-- C1 counterexample: on the board whose only run is one isolated
down-right diagonal of exactly 4 tiles, the scan reports two matches (the
full run and its overlapping length-3 suffix), and checkMatches adds 400
points instead of the 300 the size table assigns to a run of 4 — so a
maximal diagonal run is not reported exactly once. -/
theorem claim_C1_counterexample :
    isMaxDR wDiag4 0 0 4 1 ∧
    (findMatches wDiag4).length = 2 ∧
    sizePoints 4 = 300 ∧
    gDiag4.score = 0 ∧
    (gDiag4.checkMatches).score = gDiag4.score + 400 := by
  refine ⟨by decide, by decide, by decide, by decide, by decide⟩

/-- C1 witness: the amended theorem applied to concrete boards with one
isolated horizontal triple (100 points), one isolated horizontal run of 4
(300 points), one isolated vertical run of 5 (600 points), and to a row
scan. -/
theorem claim_C1_witness :
    (gC1H.checkMatches).score = gC1H.score + sizePoints 3 ∧
    (gC1H4.checkMatches).score = gC1H4.score + sizePoints 4 ∧
    (gC1V5.checkMatches).score = gC1V5.score + sizePoints 5 ∧
    scanLine (fun col => wget wC1H col 2) 5 = specRuns (fun col => wget wC1H col 2) 5 := by
  have h := claim_C1_match_scan
  refine ⟨?_, ?_, ?_, h.1 _ 5⟩
  · exact (h.2.2.2.2.1 gC1H 2 1 3 1 (by decide) (by decide) (by decide) (by decide)
      (by decide) (by decide)).1
  · exact (h.2.2.2.2.1 gC1H4 2 0 4 1 (by decide) (by decide) (by decide) (by decide)
      (by decide) (by decide)).1
  · exact (h.2.2.2.2.2.1 gC1V5 1 0 5 2 (by decide) (by decide) (by decide) (by decide)
      (by decide) (by decide)).1

set_option maxRecDepth 10000 in
set_option maxHeartbeats 8000000 in
/-- C6 counterexample: after 120 ticks from seed 1 a spawn event sits in the
buffer; pausing and then calling update() leaves the old event in place, so
getEvents() returns an event from an earlier tick even though the paused
call generated none. -/
theorem claim_C6_counterexample :
    Reach gC6 ∧
    gC6.paused = true ∧
    gC6.events ≠ [] ∧
    gC6.update = gC6 := by
  have h1 : gC6.paused = true := by decide
  have h3 : gC6.update = gC6 := update_noop_of_paused (by rw [h1]; simp)
  have h2 : gC6.events ≠ [] := by decide
  exact ⟨Reach.togglePause (updates_reach (Reach.init 1) 120), h1, h2, h3⟩

end Klax
